import Mathlib

/-!
A verification development for the stylesheet evaluation engine in
`src/parse/visitor.rs` (the `Visitor` type, its CSS output tree, scope
handling, callable binding, control flow and diagnostic rules).

The Rust code is shallowly embedded: machine floats that the source only
ever uses to hold small integral quantities are modelled as rationals,
`f64 as i64`-style conversion becomes truncation toward zero, fallible
code returns `Except`, panicking code (`todo!`, `unreachable!`) returns a
distinguished `panic` error, and interior mutability becomes explicit
state passing.  Collaborator code that lives outside `src/parse/visitor.rs`
(the scope chain, media-query merging, module configuration) is either
taken as a parameter or modelled from the specification, and is marked as
such in the corresponding doc comment.
-/

set_option maxRecDepth 10000

namespace Grass

/-- Interned identifiers (`Identifier` in the source) are modelled as
strings. -/
abbrev Ident := String

/-- Source spans (`codemap::Span`) are opaque; we model them as naturals. -/
abbrev Span := Nat

/-- `QuoteKind` from the source. -/
inductive QuoteKind
  | quoted
  | noQuote
  deriving DecidableEq, Repr

/-- `ListSeparator` as used by `eval_args` and `run_user_defined_callable`
(`Undecided`, `Comma`, `Space`). -/
inductive ListSeparator
  | undecided
  | comma
  | space
  deriving DecidableEq, Repr

/-- The fragment of the `Value` enum that the claims exercise.  `Dimension`
carries its numeric value (modelled as a rational), its unit (opaque
string) and the optional slash marker of §4.6; `List` carries elements,
separator and bracket flag; `ArgList` carries elements, captured keywords
and separator, mirroring the fields read in `eval_args`. -/
inductive Value
  | null
  | sassTrue
  | sassFalse
  | dimension (num : ℚ) (unit : String) (asSlash : Option (ℚ × ℚ))
  | str (text : String) (quote : QuoteKind)
  | list (elems : List Value) (sep : ListSeparator) (brackets : Bool)
  | map (entries : List (Value × Value))
  | argList (elems : List Value) (keywords : List (Ident × Value))
      (sep : ListSeparator)

/-- `Value::as_slash().is_some()` — the check done by
`Visitor::without_slash` before warning. -/
def Value.hasSlash : Value → Bool
  | .dimension _ _ (some _) => true
  | _ => false

/-- Modelled from the spec (§4.6): `Value::without_slash` (the `Value`
method, defined outside `src/`) strips the slash marker from a number. -/
def Value.withoutSlash : Value → Value
  | .dimension n u _ => .dimension n u none
  | v => v

/-- `Value::Null` test used by `visit_variable_decl`. -/
def Value.isNull : Value → Bool
  | .null => true
  | _ => false

/-! ## §C2: the `@for` statement (`Visitor::visit_for_stmt`) -/

/-- Truncation of a rational toward zero, the behaviour of
`num_traits::ToPrimitive::to_i64` on an (in-range) `f64`, which is how
`visit_for_stmt` converts its bounds to integers. -/
def ratTrunc (q : ℚ) : ℤ := q.num.tdiv q.den

/-- The `while i != to` loop of `visit_for_stmt`: at each iteration the
loop variable is bound to `i` (the list records the successive bound
values) and the body is run; a body statement producing a value stops the
loop (`break 'outer`).  The source loop always terminates because
`direction` points from `from` toward `to`; here that is expressed with a
fuel argument which the caller sets to the exact iteration count. -/
def forLoopF {V : Type} (body : ℤ → Option V) (tgt direction : ℤ) :
    ℤ → Nat → List ℤ × Option V
  | _, 0 => ([], none)
  | i, fuel + 1 =>
    if i = tgt then ([], none)
    else
      match body i with
      | some v => ([i], some v)
      | none =>
        let rest := forLoopF body tgt direction (i + direction) fuel
        (i :: rest.1, rest.2)

/-- `Visitor::visit_for_stmt`, after its two bounds have been evaluated,
asserted to be numbers with comparable units, and the `to` bound converted
into the unit of `from` (`Number::convert`); both are passed here as
rationals.  Returns the list of values bound to the loop variable together
with the early-return value, mirroring lines 1586–1636 of the source:
truncate both bounds (`to_i64`), infer `direction`, widen an inclusive
bound by `direction`, return immediately when `from == to`, then loop. -/
def visitForStmt {V : Type} (fromN toN : ℚ) (isExclusive : Bool)
    (body : ℤ → Option V) : List ℤ × Option V :=
  let fromI := ratTrunc fromN
  let toI := ratTrunc toN
  let direction : ℤ := if fromI > toI then -1 else 1
  let toI := if !isExclusive then toI + direction else toI
  if fromI = toI then ([], none)
  else forLoopF body toI direction fromI (toI - fromI).natAbs

/-- The iteration sequence the claim describes: direction is the sign of
`to - from`, an inclusive bound is first moved one step in that direction,
and the loop then visits every integer from `from` up to but excluding the
(adjusted) bound. -/
def forIterationSpec (fromI toI : ℤ) (isExclusive : Bool) : List ℤ :=
  let direction : ℤ := if fromI > toI then -1 else 1
  let toI := if !isExclusive then toI + direction else toI
  (List.range (toI - fromI).natAbs).map fun k : ℕ => fromI + direction * (k : ℤ)

theorem forLoopF_eq_range {V : Type} (body : ℤ → Option V)
    (hbody : ∀ i, body i = none) (d : ℤ) (hd : d = 1 ∨ d = -1) :
    ∀ (fuel : Nat) (i tgt : ℤ), tgt - i = d * fuel →
      forLoopF body tgt d i fuel =
        ((List.range fuel).map (fun k : ℕ => i + d * (k : ℤ)), none) := by
  intro fuel
  induction fuel with
  | zero =>
    intro i tgt h
    simp [forLoopF]
  | succ n ih =>
    intro i tgt h
    have hne : i ≠ tgt := by
      intro hEq
      rw [hEq] at h
      simp at h
      rcases hd with h1 | h1 <;> rw [h1] at h <;> omega
    have hstep : tgt - (i + d) = d * n := by
      push_cast at h
      linarith
    rw [forLoopF, if_neg (fun hEq => hne hEq), hbody]
    simp only
    rw [ih (i + d) tgt hstep]
    simp only [Prod.mk.injEq, and_true]
    rw [List.range_succ_eq_map, List.map_cons, List.map_map]
    congr 1
    · simp
    · refine List.map_congr_left fun a _ => ?_
      simp only [Function.comp_apply]
      push_cast
      ring

theorem visitForStmt_spec {V : Type} (body : ℤ → Option V)
    (hbody : ∀ i, body i = none) (fromN toN : ℚ) (ex : Bool) :
    visitForStmt fromN toN ex body =
      (forIterationSpec (ratTrunc fromN) (ratTrunc toN) ex, none) := by
  simp only [visitForStmt, forIterationSpec]
  set a := ratTrunc fromN with ha
  set b := ratTrunc toN with hb
  set d : ℤ := if a > b then -1 else 1 with hd0
  have hd : d = 1 ∨ d = -1 := by
    by_cases h : a > b <;> simp [hd0, h]
  set c := if !ex then b + d else b with hc0
  by_cases h2 : a = c
  · rw [if_pos h2, h2]
    simp
  · rw [if_neg h2]
    apply forLoopF_eq_range body hbody d hd
    have hsign : (d = 1 ∧ a < c) ∨ (d = -1 ∧ c < a) := by
      by_cases h : a > b <;> cases ex <;>
          simp [hc0, hd0, h] at h2 ⊢ <;>
        omega
    rcases hsign with ⟨hde, hlt⟩ | ⟨hde, hlt⟩ <;> rw [hde] <;> omega

/-- **C2.** For every `@for` statement whose bounds evaluate to numbers with
comparable units (modelled here as the two already-converted rational
bounds): the bounds are truncated to integers, the iteration direction is
the sign of `to - from`, an inclusive (`through`) bound is adjusted by one
step in the iteration direction before the loop, and a degenerate
exclusive range with `from == to` performs zero iterations; concretely
`@for $i from 1 to 3` iterates `1, 2`, `@for $i from 1 through 3` iterates
`1, 2, 3`, and `@for $i from 3 to 1` iterates `3, 2`. -/
theorem C2_for_stmt_iteration {V : Type} (body : ℤ → Option V)
    (hbody : ∀ i, body i = none) :
    (∀ (fromN toN : ℚ) (ex : Bool),
        visitForStmt fromN toN ex body =
          (forIterationSpec (ratTrunc fromN) (ratTrunc toN) ex, none))
      ∧ visitForStmt 1 3 true body = ([1, 2], none)
      ∧ visitForStmt 1 3 false body = ([1, 2, 3], none)
      ∧ visitForStmt 3 1 true body = ([3, 2], none)
      ∧ ∀ fromN toN : ℚ, ratTrunc fromN = ratTrunc toN →
          visitForStmt fromN toN true body = ([], none) := by
  refine ⟨visitForStmt_spec body hbody, ?_, ?_, ?_, ?_⟩
  · rw [visitForStmt_spec body hbody,
      show forIterationSpec (ratTrunc 1) (ratTrunc 3) true = [1, 2] by decide]
  · rw [visitForStmt_spec body hbody,
      show forIterationSpec (ratTrunc 1) (ratTrunc 3) false = [1, 2, 3]
        by decide]
  · rw [visitForStmt_spec body hbody,
      show forIterationSpec (ratTrunc 3) (ratTrunc 1) true = [3, 2] by decide]
  · intro fromN toN h
    rw [visitForStmt_spec body hbody, h]
    simp [forIterationSpec]

/-- Closed-form instance of `C2_for_stmt_iteration`: the `1 to 3` example
and a degenerate `2 to 2` range, with all hypotheses discharged. -/
theorem C2_for_stmt_iteration_witness :
    visitForStmt 1 3 true (fun _ => (none : Option Unit)) = ([1, 2], none) ∧
      visitForStmt 2 2 true (fun _ => (none : Option Unit)) = ([], none) :=
  ⟨(C2_for_stmt_iteration _ (fun _ => rfl)).2.1,
    (C2_for_stmt_iteration _ (fun _ => rfl)).2.2.2.2 2 2 rfl⟩

/-! ## The scope chain

`Scope`/`Scopes` live in `src/scope.rs`, which is not part of the core
under study; the operations used by `visitor.rs` are modelled from the
spec (§4.1). -/

/-- Modelled from the spec: a `Scope` is an ordered mapping from
identifier to value (the mixin and function namespaces are not needed by
the claims). -/
abbrev Scope := List (Ident × Value)

/-- Modelled from the spec: lookup in one scope. -/
def Scope.getVar (s : Scope) (name : Ident) : Option Value :=
  (s.find? (fun p => p.1 = name)).map (·.2)

/-- `Scope::var_exists`. -/
def Scope.varExists (s : Scope) (name : Ident) : Bool :=
  (s.getVar name).isSome

/-- Modelled from the spec: `Scope::insert_var` updates an existing
binding in place, otherwise appends a new one. -/
def Scope.insertVar (s : Scope) (name : Ident) (v : Value) : Scope :=
  if s.any (fun p => p.1 = name) then
    s.map fun p => if p.1 = name then (name, v) else p
  else s ++ [(name, v)]

/-- Modelled from the spec: the scope chain, a stack of lexical scopes.
The innermost scope is the head of the list; the distinguished global
scope is held separately by the `Environment`.  `Visitor::env.at_root()`
is `Scopes::is_empty`. -/
structure Scopes where
  stack : List Scope

/-- `Scopes::new`. -/
def Scopes.new : Scopes := ⟨[]⟩

/-- `Scopes::is_empty` (`Environment::at_root`). -/
def Scopes.isEmpty (sc : Scopes) : Bool := sc.stack.isEmpty

/-- `Scopes::enter_new_scope`. -/
def Scopes.enterNewScope (sc : Scopes) : Scopes := ⟨[] :: sc.stack⟩

/-- `Scopes::exit_scope`. -/
def Scopes.exitScope (sc : Scopes) : Scopes := ⟨sc.stack.tail⟩

/-- Modelled from the spec: `insert_var_last` inserts into the innermost
currently-open scope.  (Its callers in `visitor.rs` always open a scope
first; with no open scope we insert into a fresh one.) -/
def Scopes.insertVarLast (sc : Scopes) (name : Ident) (v : Value) : Scopes :=
  match sc.stack with
  | [] => ⟨[Scope.insertVar [] name v]⟩
  | s :: rest => ⟨Scope.insertVar s name v :: rest⟩

/-- Modelled from the spec: `get_var` searches innermost→outermost, then
falls back to the global scope. -/
def Scopes.getVar (sc : Scopes) (globalScope : Scope) (name : Ident) :
    Option Value :=
  match sc.stack.findSome? (fun s => s.getVar name) with
  | some v => some v
  | none => globalScope.getVar name

/-- `Scopes::var_exists(name, global_scope)`. -/
def Scopes.varExists (sc : Scopes) (globalScope : Scope) (name : Ident) :
    Bool :=
  (sc.getVar globalScope name).isSome

/-- Modelled from the spec (§4.1): plain insertion (`__insert_var`)
honouring semi-global semantics — update the binding in the innermost
scope holding the name when the semi-global flag is set (falling back to
the global scope), otherwise insert into the innermost open scope. -/
def Scopes.updateFirst (name : Ident) (v : Value) :
    List Scope → Option (List Scope)
  | [] => none
  | s :: rest =>
    if s.varExists name then some (Scope.insertVar s name v :: rest)
    else (Scopes.updateFirst name v rest).map (s :: ·)

/-- Modelled from the spec: `Scopes::__insert_var(name, value, global,
in_semi_global_scope)`; returns the updated chain and global scope. -/
def Scopes.insertVar (sc : Scopes) (globalScope : Scope) (name : Ident)
    (v : Value) (semiGlobal : Bool) : Scopes × Scope :=
  if semiGlobal then
    match Scopes.updateFirst name v sc.stack with
    | some stack => (⟨stack⟩, globalScope)
    | none =>
      if globalScope.varExists name then
        (sc, globalScope.insertVar name v)
      else (sc.insertVarLast name v, globalScope)
  else (sc.insertVarLast name v, globalScope)

/-! ## Context flags (`src/parse/common.rs`)

`ContextFlags` is a packed `u16`; we model the word as a natural below
`2 ^ 16` and mirror `set`/`unset` and the accessors bit for bit. -/

/-- `ContextFlags::IN_SEMI_GLOBAL_SCOPE = 1 << 12`. -/
def inSemiGlobalScopeMask : Nat := 1 <<< 12

/-- `ContextFlags::set(flag, v)`: `|=` the mask or `&=` its complement
(the complement of a `u16` is taken within sixteen bits). -/
def flagsSet (flags mask : Nat) (v : Bool) : Nat :=
  if v then flags ||| mask else flags &&& (65535 ^^^ mask)

/-- `(self.0 & flag) != 0`, the accessor pattern of `ContextFlags`. -/
def flagsGet (flags mask : Nat) : Bool := flags &&& mask != 0

/-- `ContextFlags::in_semi_global_scope`. -/
def inSemiGlobalScope (flags : Nat) : Bool :=
  flagsGet flags inSemiGlobalScopeMask

theorem inSemiGlobalScope_flagsSet (flags : Nat) (v : Bool) :
    inSemiGlobalScope (flagsSet flags inSemiGlobalScopeMask v) = v := by
  have hm : inSemiGlobalScopeMask = 2 ^ 12 := by
    norm_num [inSemiGlobalScopeMask, Nat.shiftLeft_eq]
  have key : ∀ x : Nat, flagsGet x inSemiGlobalScopeMask = x.testBit 12 := by
    intro x
    rw [flagsGet, hm, Nat.and_two_pow]
    cases h : x.testBit 12 <;> simp [h]
  rw [inSemiGlobalScope, key]
  cases v
  · rw [show flagsSet flags inSemiGlobalScopeMask false =
        flags &&& (65535 ^^^ inSemiGlobalScopeMask) by simp [flagsSet]]
    rw [Nat.testBit_land]
    have h2 : (65535 ^^^ inSemiGlobalScopeMask).testBit 12 = false := by
      rw [hm]
      decide
    rw [h2, Bool.and_false]
  · rw [show flagsSet flags inSemiGlobalScopeMask true =
        flags ||| inSemiGlobalScopeMask by simp [flagsSet]]
    rw [Nat.testBit_lor]
    have h3 : inSemiGlobalScopeMask.testBit 12 = true := by
      rw [hm]
      decide
    rw [h3, Bool.or_true]

/-! ## CSS output tree (`CssTree` in `visitor.rs`) -/

/-- The output `Stmt` enum, with the payloads not inspected by `CssTree`
(selectors, queries, interned strings, spans) modelled as strings or
naturals.  `Stmt::Media` carries `MediaRule { query, body }` inline plus
the `bool` flag of the source tuple variant. -/
inductive Stmt
  | ruleSet (selector : String) (body : List Stmt)
  | style (property : String) (value : String)
  | comment (text : String) (span : Span)
  | cssImport (text : String)
  | media (query : String) (body : List Stmt) (inStyleRule : Bool)
  | unknownAtRule (name : String) (body : List Stmt)
  | supports (params : String) (body : List Stmt)
  | keyframes (name : String) (body : List Stmt)
  | keyframesRuleSet (selector : String) (body : List Stmt)

/-- The tree arena: `stmts` is the slot vector (`None` is a tombstone;
slot `0` is the permanent root and always `None`), plus the two
parent/child maps (`BTreeMap`s, modelled as association lists — only
keyed lookup and ordered-value iteration are used). -/
structure CssTree where
  stmts : List (Option Stmt)
  parentToChild : List (Nat × List Nat)
  childToParent : List (Nat × Nat)

/-- Keyed lookup in an association list (`BTreeMap::get`). -/
def assocGet {α : Type} : List (Nat × α) → Nat → Option α
  | [], _ => none
  | (k, a) :: rest, key => if k = key then some a else assocGet rest key

/-- `BTreeMap::entry(k).or_default().push(c)`. -/
def assocPush : List (Nat × List Nat) → Nat → Nat → List (Nat × List Nat)
  | [], key, c => [(key, [c])]
  | (k, cs) :: rest, key, c =>
    if k = key then (k, cs ++ [c]) :: rest
    else (k, cs) :: assocPush rest key c

/-- `CssTree::new`: a single tombstoned root slot. -/
def CssTree.new : CssTree := ⟨[none], [], []⟩

/-- `CssTree::has_children`. -/
def CssTree.hasChildrenMap (p2c : List (Nat × List Nat)) (parent : Nat) :
    Bool :=
  (assocGet p2c parent).isSome

/-- `CssTree::add_stmt_inner`: push a live slot, returning its index. -/
def CssTree.addStmtInner (t : CssTree) (stmt : Stmt) : CssTree × Nat :=
  ({ t with stmts := t.stmts ++ [some stmt] }, t.stmts.length)

/-- `CssTree::add_child`. -/
def CssTree.addChild (t : CssTree) (child : Stmt) (parentIdx : Nat) :
    CssTree × Nat :=
  let (t, childIdx) := t.addStmtInner child
  ({ t with
      parentToChild := assocPush t.parentToChild parentIdx childIdx,
      childToParent := t.childToParent ++ [(childIdx, parentIdx)] },
    childIdx)

/-- `CssTree::add_stmt`: `None` means the root. -/
def CssTree.addStmt (t : CssTree) (child : Stmt) (parent : Option Nat) :
    CssTree × Nat :=
  match parent with
  | some parentIdx => t.addChild child parentIdx
  | none => t.addChild child 0

/-! ## Media queries -/

/-- Parsed media queries are opaque to `merge_media_queries` (the `merge`
operation lives with the `MediaQuery` type outside this core); we model
them as naturals and take `merge` as a parameter. -/
abbrev MediaQuery := Nat

/-- `MediaQueryMergeResult`. -/
inductive MediaQueryMergeResult
  | empty
  | unrepresentable
  | success (q : MediaQuery)
  deriving DecidableEq

/-! ## The visitor state -/

/-- Evaluation failure: either a `SassError` (message + span) or a Rust
panic (`todo!`, `unreachable!`, failed `unwrap`). -/
inductive EvalError
  | sassErr (message : String) (span : Span)
  | panic (message : String)
  deriving DecidableEq

/-- `Environment`: scope-chain handle plus global scope.  The module
table and content closure are omitted (not touched by the claims); the
`Arc` sharing is immaterial for the callables modelled here because
`new_closure_idx` builds a fresh, unshared chain. -/
structure Environment where
  scopes : Scopes
  globalScope : Scope

/-- `Environment::at_root`. -/
def Environment.atRoot (env : Environment) : Bool := env.scopes.isEmpty

/-- The `Visitor` state (the fields the claims exercise).  `output` is
the stream of `eprintln!` diagnostics, recorded as message–span pairs;
`quiet` is `parser.options.quiet`; `moduleConfig` is the visitor's
`module_config` (an identifier–value mapping, populated externally). -/
structure Visitor where
  declarationName : Option String
  flags : Nat
  env : Environment
  styleRuleIgnoringAtRoot : Option String
  warningsEmitted : List Span
  mediaQueries : Option (List MediaQuery)
  mediaQuerySources : Option (List MediaQuery)
  moduleConfig : List (Ident × Value)
  cssTree : CssTree
  parent : Option Nat
  quiet : Bool
  output : List (String × Span)

/-- The expression fragment needed by the claims: literal values and
variable references (`AstExpr::Variable` with no namespace). -/
inductive AstExpr
  | literal (val : Value)
  | variable (name : Ident) (span : Span)

/-- `Visitor::visit_expr`, restricted to the embedded expression
fragment.  A literal evaluates to itself; a variable is looked up
innermost→outermost with global fallback, failing with a `SassError` when
missing. -/
def Visitor.visitExpr (v : Visitor) :
    AstExpr → Except EvalError (Value × Visitor)
  | .literal val => .ok (val, v)
  | .variable name span =>
    match v.env.scopes.getVar v.env.globalScope name with
    | some val => .ok (val, v)
    | none => .error (.sassErr "Undefined variable." span)

/-- `Visitor::emit_warning`: suppressed under quiet mode, otherwise one
`eprintln!` line. -/
def Visitor.emitWarning (v : Visitor) (message : String) (span : Span) :
    Visitor :=
  if v.quiet then v
  else { v with output := v.output ++ [(message, span)] }

/-- `Visitor::without_slash` (the visitor method): warn once about `/`
division if the value carries a slash marker, then strip it. -/
def Visitor.withoutSlash (v : Visitor) (val : Value) : Value × Visitor :=
  if val.hasSlash then
    (val.withoutSlash,
      v.emitWarning "Using / for division is deprecated and will be removed"
        0)
  else (val.withoutSlash, v)

/-- `Visitor::with_media_queries`: save, swap in, run, restore. -/
def Visitor.withMediaQueries {T : Type} (v : Visitor)
    (queries : Option (List MediaQuery))
    (sources : Option (List MediaQuery))
    (callback : Visitor → T × Visitor) : T × Visitor :=
  let oldMediaQueries := v.mediaQueries
  let oldMediaQuerySources := v.mediaQuerySources
  let v := { v with mediaQueries := queries, mediaQuerySources := sources }
  let (result, v) := callback v
  (result,
    { v with
        mediaQueries := oldMediaQueries,
        mediaQuerySources := oldMediaQuerySources })

/-- `Visitor::with_environment`: swap the environment around the
callback. -/
def Visitor.withEnvironment {T : Type} (v : Visitor) (env : Environment)
    (callback : Visitor → T × Visitor) : T × Visitor :=
  let oldEnv := v.env
  let v := { v with env := env }
  let (result, v) := callback v
  (result, { v with env := oldEnv })

/-- `Visitor::with_scope`: conditionally narrow the semi-global flag and
open a scope, run the callback, then restore the flag and close the
scope. -/
def Visitor.withScope {T : Type} (v : Visitor) (semiGlobal when : Bool)
    (callback : Visitor → T × Visitor) : T × Visitor :=
  let semiGlobal := semiGlobal && inSemiGlobalScope v.flags
  let wasInSemiGlobalScope := inSemiGlobalScope v.flags
  let v :=
    { v with flags := flagsSet v.flags inSemiGlobalScopeMask semiGlobal }
  if !when then
    let (result, v) := callback v
    (result,
      { v with
          flags :=
            flagsSet v.flags inSemiGlobalScopeMask wasInSemiGlobalScope })
  else
    let v := { v with env := { v.env with scopes := v.env.scopes.enterNewScope } }
    let (result, v) := callback v
    let v :=
      { v with
          flags :=
            flagsSet v.flags inSemiGlobalScopeMask wasInSemiGlobalScope }
    (result, { v with env := { v.env with scopes := v.env.scopes.exitScope } })

/-- `Visitor::with_parent`: record the new insertion point, delegate to
`with_scope`, restore the old parent. -/
def Visitor.withParent {T : Type} (v : Visitor) (parent : Nat)
    (scopeWhen : Bool) (callback : Visitor → T × Visitor) : T × Visitor :=
  let oldParent := v.parent
  let v := { v with parent := some parent }
  let (result, v) := v.withScope false scopeWhen callback
  (result, { v with parent := oldParent })

/-- **C10.** The visitor's scoped-state helpers restore all state they
save regardless of the callback's outcome (the callback is arbitrary and
may mutate any field and return any value, including an error value):
`with_media_queries` restores `media_queries` and `media_query_sources`,
`with_parent` restores the current parent index and the
`IN_SEMI_GLOBAL_SCOPE` flag, and `with_scope` restores the
`IN_SEMI_GLOBAL_SCOPE` flag. -/
theorem C10_scoped_state_restored {T : Type} (v : Visitor)
    (callback : Visitor → T × Visitor) :
    (∀ queries sources,
        (v.withMediaQueries queries sources callback).2.mediaQueries =
            v.mediaQueries ∧
          (v.withMediaQueries queries sources callback).2.mediaQuerySources =
            v.mediaQuerySources)
      ∧ (∀ parent scopeWhen,
          (v.withParent parent scopeWhen callback).2.parent = v.parent ∧
            inSemiGlobalScope
                (v.withParent parent scopeWhen callback).2.flags =
              inSemiGlobalScope v.flags)
      ∧ ∀ semiGlobal when,
          inSemiGlobalScope (v.withScope semiGlobal when callback).2.flags =
            inSemiGlobalScope v.flags := by
  have hscope : ∀ (v : Visitor) (semiGlobal when : Bool),
      inSemiGlobalScope (v.withScope semiGlobal when callback).2.flags =
        inSemiGlobalScope v.flags := by
    intro v semiGlobal when
    cases when <;> simp [Visitor.withScope, inSemiGlobalScope_flagsSet]
  refine ⟨?_, ?_, fun semiGlobal when => hscope v semiGlobal when⟩
  · intro queries sources
    rw [Visitor.withMediaQueries]
    exact ⟨rfl, rfl⟩
  · intro parent scopeWhen
    rw [Visitor.withParent]
    exact ⟨rfl, hscope _ false scopeWhen⟩

/-! ## `@warn` and `@debug` (`visit_warn_rule`, `emit_warning`,
`visit_debug_rule`) -/

/-- `AstWarn`. -/
structure AstWarn where
  value : AstExpr
  span : Span

/-- `AstDebugRule`. -/
structure AstDebugRule where
  value : AstExpr
  span : Span

/-- `Visitor::visit_warn_rule`: `warnings_emitted.insert(span)` succeeds
only for an unseen span, in which case the message expression is
evaluated, serialized (`Value::to_css_string`, an external collaborator
passed as `serialize`), and handed to `emit_warning`. -/
def Visitor.visitWarnRule (serialize : Value → String) (warnRule : AstWarn)
    (v : Visitor) : Except EvalError Visitor :=
  if v.warningsEmitted.contains warnRule.span then .ok v
  else
    let v := { v with warningsEmitted := v.warningsEmitted ++ [warnRule.span] }
    match v.visitExpr warnRule.value with
    | .error e => .error e
    | .ok (value, v) => .ok (v.emitWarning (serialize value) warnRule.span)

/-- `Visitor::visit_debug_rule`: nothing at all under quiet mode,
otherwise evaluate and print one line (`Value::inspect` is the external
serializer passed as `inspect`). -/
def Visitor.visitDebugRule (inspect : Value → String)
    (debugRule : AstDebugRule) (v : Visitor) : Except EvalError Visitor :=
  if v.quiet then .ok v
  else
    match v.visitExpr debugRule.value with
    | .error e => .error e
    | .ok (message, v) =>
      .ok { v with output := v.output ++ [(inspect message, debugRule.span)] }

/-- `n` successive evaluations of the same `@warn` rule (as happens when a
loop body containing it is iterated). -/
def iterateWarnRule (serialize : Value → String) (warnRule : AstWarn) :
    Nat → Visitor → Except EvalError Visitor
  | 0, v => .ok v
  | n + 1, v =>
    match v.visitWarnRule serialize warnRule with
    | .error e => .error e
    | .ok v => iterateWarnRule serialize warnRule n v

theorem visitWarnRule_seen (serialize : Value → String) (w : AstWarn)
    (v : Visitor) (h : v.warningsEmitted.contains w.span = true) :
    v.visitWarnRule serialize w = .ok v := by
  rw [Visitor.visitWarnRule, if_pos h]

theorem visitWarnRule_fresh (serialize : Value → String) (val : Value)
    (sp : Span) (v : Visitor)
    (hfresh : v.warningsEmitted.contains sp = false)
    (hq : v.quiet = false) :
    v.visitWarnRule serialize ⟨.literal val, sp⟩ =
      .ok
        { v with
            warningsEmitted := v.warningsEmitted ++ [sp],
            output := v.output ++ [(serialize val, sp)] } := by
  rw [Visitor.visitWarnRule]
  simp only [hfresh, Bool.false_eq_true, if_false, ite_false,
    Visitor.visitExpr, Visitor.emitWarning, hq]

theorem iterateWarnRule_seen (serialize : Value → String) (w : AstWarn)
    (v : Visitor) (h : v.warningsEmitted.contains w.span = true) :
    ∀ n, iterateWarnRule serialize w n v = .ok v := by
  intro n
  induction n with
  | zero => rfl
  | succ n ih =>
    rw [iterateWarnRule, visitWarnRule_seen serialize w v h]
    exact ih

/-- **C9.** Within one compilation `@warn` warnings are de-duplicated by
source span: the first evaluation of an `@warn` rule at an unseen span
appends exactly one warning to the diagnostic stream (and records the
span), every later evaluation at that span is a no-op, and iterating a
loop containing the same `@warn` any positive number of times warns
exactly once; under quiet mode `@warn` and `@debug` produce no output at
all. -/
theorem C9_warn_dedup_and_quiet (serialize inspect : Value → String)
    (val : Value) (sp : Span) (v : Visitor) :
    (v.warningsEmitted.contains sp = false → v.quiet = false →
        v.visitWarnRule serialize ⟨.literal val, sp⟩ =
          .ok
            { v with
                warningsEmitted := v.warningsEmitted ++ [sp],
                output := v.output ++ [(serialize val, sp)] })
      ∧ (∀ w : AstWarn, v.warningsEmitted.contains w.span = true →
          v.visitWarnRule serialize w = .ok v)
      ∧ (∀ n, v.warningsEmitted.contains sp = false → v.quiet = false →
          iterateWarnRule serialize ⟨.literal val, sp⟩ (n + 1) v =
            .ok
              { v with
                  warningsEmitted := v.warningsEmitted ++ [sp],
                  output := v.output ++ [(serialize val, sp)] })
      ∧ (v.quiet = true → ∀ v',
          v.visitWarnRule serialize ⟨.literal val, sp⟩ = .ok v' →
            v'.output = v.output)
      ∧ (v.quiet = true → ∀ e,
          v.visitDebugRule inspect ⟨e, sp⟩ = .ok v) := by
  refine ⟨fun hfresh hq => visitWarnRule_fresh serialize val sp v hfresh hq,
    fun w h => visitWarnRule_seen serialize w v h, ?_, ?_, ?_⟩
  · intro n hfresh hq
    rw [iterateWarnRule, visitWarnRule_fresh serialize val sp v hfresh hq]
    apply iterateWarnRule_seen
    simp
  · intro hq v' hv
    rw [Visitor.visitWarnRule] at hv
    by_cases h : v.warningsEmitted.contains sp = true
    · rw [if_pos h] at hv
      cases hv
      rfl
    · rw [if_neg h] at hv
      simp only [Visitor.visitExpr, Visitor.emitWarning, hq, if_true,
        ite_true] at hv
      cases hv
      rfl
  · intro hq e
    rw [Visitor.visitDebugRule, if_pos hq]

/-- A concrete quiescent visitor state used by closed witnesses. -/
def emptyVisitor : Visitor where
  declarationName := none
  flags := 0
  env := ⟨Scopes.new, []⟩
  styleRuleIgnoringAtRoot := none
  warningsEmitted := []
  mediaQueries := none
  mediaQuerySources := none
  moduleConfig := []
  cssTree := CssTree.new
  parent := none
  quiet := false
  output := []

/-- Closed-form instance of `C9_warn_dedup_and_quiet`: three iterations
of one `@warn` rule starting from a fresh visitor emit exactly one
warning. -/
theorem C9_warn_dedup_and_quiet_witness :
    iterateWarnRule (fun _ => "w") ⟨.literal .null, 7⟩ 3 emptyVisitor =
      .ok
        { emptyVisitor with
            warningsEmitted := [7],
            output := [("w", 7)] } :=
  (C9_warn_dedup_and_quiet (fun _ => "w") (fun _ => "d") .null 7
      emptyVisitor).2.2.1 2 rfl rfl

/-! ## Callable binding (`eval_args`, `run_user_defined_callable`,
`run_function_callable_with_maybe_evaled`) -/

/-- External serializers consumed by diagnostic rules
(`Value::to_css_string` and `Value::inspect` live with the value model,
outside this core). -/
structure Externals where
  serialize : Value → String
  inspect : Value → String

/-- One declared parameter: name plus optional default expression. -/
structure Argument where
  name : Ident
  default : Option AstExpr

/-- `ArgumentDeclaration`: ordered declared parameters plus optional rest
parameter name. -/
structure ArgumentDeclaration where
  args : List Argument
  rest : Option Ident

/-- `ArgumentInvocation`: positional expressions, named expressions, and
the optional rest / keyword-rest expressions. -/
structure ArgumentInvocation where
  positional : List AstExpr
  named : List (Ident × AstExpr)
  rest : Option AstExpr
  keywordRest : Option AstExpr
  span : Span

/-- `ArgumentResult` (from `value_new`): the evaluated counterpart.  The
`BTreeMap` of named values is modelled as an insertion-ordered
association list (only keyed insert/remove/lookup and emptiness are
used). -/
structure ArgumentResult where
  positional : List Value
  named : List (Ident × Value)
  separator : ListSeparator
  span : Span
  touched : List Ident

/-- `BTreeMap::remove`: the removed value (if any) and the map without
the key. -/
def mapRemove (named : List (Ident × Value)) (key : Ident) :
    Option Value × List (Ident × Value) :=
  ((named.find? (fun p => p.1 = key)).map (·.2),
    named.filter (fun p => ¬(p.1 = key)))

/-- Modelled from the spec (§4.3): `ArgumentDeclaration::verify` (outside
`src/`) — with no rest parameter, excess positional arguments are an
error naming the allowed count, and a named argument not present in the
declaration is an error naming that argument. -/
def ArgumentDeclaration.verify (decl : ArgumentDeclaration)
    (numPositional : Nat) (named : List (Ident × Value)) (span : Span) :
    Except EvalError Unit :=
  if decl.rest.isSome then .ok ()
  else if decl.args.length < numPositional then
    .error (.sassErr
      ("Only " ++ toString decl.args.length ++ " arguments allowed, but "
        ++ toString numPositional ++ " were passed.") span)
  else
    match named.find? (fun p => !decl.args.any (fun a => a.name = p.1)) with
    | some p => .error (.sassErr ("No argument named $" ++ p.1 ++ ".") span)
    | none => .ok ()

/-- The `positional` evaluation loop of `eval_args`: evaluate each
expression and strip its slash marker. -/
def Visitor.evalPositionalArgs (v : Visitor) :
    List AstExpr → List Value → Except EvalError (List Value × Visitor)
  | [], acc => .ok (acc, v)
  | e :: rest, acc =>
    match v.visitExpr e with
    | .error err => .error err
    | .ok (val, v) =>
      let (val, v) := v.withoutSlash val
      v.evalPositionalArgs rest (acc ++ [val])

/-- The `named` evaluation loop of `eval_args`. -/
def Visitor.evalNamedArgs (v : Visitor) :
    List (Ident × AstExpr) → List (Ident × Value) →
      Except EvalError (List (Ident × Value) × Visitor)
  | [], acc => .ok (acc, v)
  | (key, e) :: rest, acc =>
    match v.visitExpr e with
    | .error err => .error err
    | .ok (val, v) =>
      let (val, v) := v.withoutSlash val
      v.evalNamedArgs rest (Scope.insertVar acc key val)

/-- `Visitor::add_rest_map`: map entries become named arguments; a
non-string key panics (`todo!`). -/
def addRestMap (named : List (Ident × Value)) :
    List (Value × Value) → Except EvalError (List (Ident × Value))
  | [] => .ok named
  | (key, val) :: rest =>
    match key with
    | .str text _ => addRestMap (Scope.insertVar named text val) rest
    | _ =>
      .error (.panic "Variable keyword argument map must have string keys.")

/-- `self.without_slash` applied to each element of a spread list. -/
def Visitor.withoutSlashList (v : Visitor) :
    List Value → List Value → List Value × Visitor
  | [], acc => (acc, v)
  | val :: rest, acc =>
    let (val, v) := v.withoutSlash val
    v.withoutSlashList rest (acc ++ [val])

/-- `Visitor::eval_args` (lines 1868–1955): evaluate positional then
named arguments; with no rest expression return immediately (separator
`Undecided`); otherwise dispatch on the rest value — a map contributes
named entries, a list contributes positional entries and its separator, an
argument list contributes positional entries, its keywords, and its
separator, anything else is appended positionally; with no keyword-rest
expression return (separator `Undecided` again, as in the source);
otherwise the keyword-rest value must be a map, contributing named
entries, and only this return carries the remembered separator. -/
def Visitor.evalArgs (v : Visitor) (arguments : ArgumentInvocation) :
    Except EvalError (ArgumentResult × Visitor) :=
  match v.evalPositionalArgs arguments.positional [] with
  | .error e => .error e
  | .ok (positional, v) =>
    match v.evalNamedArgs arguments.named [] with
    | .error e => .error e
    | .ok (named, v) =>
      match arguments.rest with
      | none =>
        .ok (⟨positional, named, .undecided, arguments.span, []⟩, v)
      | some restExpr =>
        match v.visitExpr restExpr with
        | .error e => .error e
        | .ok (rest, v) =>
          let step : Except EvalError
              (List Value × List (Ident × Value) × ListSeparator × Visitor) :=
            match rest with
            | .map entries =>
              match addRestMap named entries with
              | .error e => .error e
              | .ok named => .ok (positional, named, .undecided, v)
            | .list elems listSeparator _ =>
              let (more, v) := v.withoutSlashList elems []
              .ok (positional ++ more, named, listSeparator, v)
            | .argList elems keywords listSeparator =>
              let (more, v) := v.withoutSlashList elems []
              let (named, v) :=
                keywords.foldl
                  (fun (acc : List (Ident × Value) × Visitor) kv =>
                    let (val, v) := acc.2.withoutSlash kv.2
                    (Scope.insertVar acc.1 kv.1 val, v))
                  (named, v)
              .ok (positional ++ more, named, listSeparator, v)
            | other =>
              let (val, v) := v.withoutSlash other
              .ok (positional ++ [val], named, .undecided, v)
          match step with
          | .error e => .error e
          | .ok (positional, named, separator, v) =>
            match arguments.keywordRest with
            | none =>
              .ok (⟨positional, named, .undecided, arguments.span, []⟩, v)
            | some kwExpr =>
              match v.visitExpr kwExpr with
              | .error e => .error e
              | .ok (.map keywordRest, v) =>
                match addRestMap named keywordRest with
                | .error e => .error e
                | .ok named =>
                  .ok (⟨positional, named, separator, arguments.span, []⟩, v)
              | .ok _ =>
                .error (.panic
                  "Variable keyword arguments must be a map (was $keywordRest).")

/-- `MaybeEvaledArguments`. -/
inductive MaybeEvaledArguments
  | invocation (args : ArgumentInvocation)
  | evaled (args : ArgumentResult)

/-- `Visitor::eval_maybe_args`. -/
def Visitor.evalMaybeArgs (v : Visitor) (args : MaybeEvaledArguments) :
    Except EvalError (ArgumentResult × Visitor) :=
  match args with
  | .invocation args => v.evalArgs args
  | .evaled args => .ok (args, v)

/-- Insert a variable into the innermost open scope of the visitor's
environment (`visitor.env.scopes_mut().insert_var_last(..)`). -/
def Visitor.insertVarLast (v : Visitor) (name : Ident) (val : Value) :
    Visitor :=
  { v with env :=
      { v.env with scopes := v.env.scopes.insertVarLast name val } }

/-- The default-binding loop of `run_user_defined_callable`: each declared
parameter not bound positionally takes its value from the named map
(removing the entry) or, failing that, from its default expression
evaluated by the current visitor (that is, in the callee environment and
scope); a missing default for an unbound parameter is the `.unwrap()`
panic of the source (prevented by `verify`). -/
def Visitor.bindDefaults (v : Visitor) :
    List Argument → List (Ident × Value) →
      Except EvalError (List (Ident × Value) × Visitor)
  | [], named => .ok (named, v)
  | argument :: rest, named =>
    match mapRemove named argument.name with
    | (some value, named) =>
      (v.insertVarLast argument.name value).bindDefaults rest named
    | (none, named) =>
      match argument.default with
      | none => .error (.panic "Option::unwrap on a None default expression")
      | some d =>
        match v.visitExpr d with
        | .error e => .error e
        | .ok (value, v) =>
          let (value, v) := v.withoutSlash value
          (v.insertVarLast argument.name value).bindDefaults rest named

/-- Adapt a state-threading fallible computation to the callback shape of
`with_scope`/`with_environment` (on failure evaluation aborts, so the
state at the failure point is never observed). -/
def asCallback {α : Type} (f : Visitor → Except EvalError (α × Visitor)) :
    Visitor → Except EvalError α × Visitor :=
  fun v =>
    match f v with
    | .ok (a, v) => (.ok a, v)
    | .error e => (.error e, v)

/-- The closure body of `run_user_defined_callable` (run inside
`with_environment` + `with_scope`): verify arity, bind positional
arguments to declared parameters in order, bind the remaining declared
parameters from named arguments or defaults, package the unconsumed
positional tail and named arguments into an argument list bound to the
rest parameter (separator `Comma` when the evaluated one was `Undecided`,
otherwise `Space`), run the body, and afterwards fail on leftover named
arguments unless a rest parameter consumed them (`todo!("argument list
mutable")` when an argument list exists and named arguments remain). -/
def Visitor.bindAndRun {V : Type} (v : Visitor) (evaluated : ArgumentResult)
    (funcArgs : ArgumentDeclaration)
    (run : Visitor → Except EvalError (V × Visitor)) :
    Except EvalError (V × Visitor) :=
  match funcArgs.verify evaluated.positional.length evaluated.named
      evaluated.span with
  | .error e => .error e
  | .ok _ =>
    let declaredArguments := funcArgs.args
    let v :=
      (declaredArguments.zip evaluated.positional).foldl
        (fun v p => v.insertVarLast p.1.name p.2) v
    let additionalDeclaredArgs :=
      declaredArguments.drop evaluated.positional.length
    match v.bindDefaults additionalDeclaredArgs evaluated.named with
    | .error e => .error e
    | .ok (named, v) =>
      match funcArgs.rest with
      | none =>
        match run v with
        | .error e => .error e
        | .ok (val, v) => .ok (val, v)
      | some restArg =>
        let rest := evaluated.positional.drop declaredArguments.length
        let argList :=
          Value.argList rest named
            (if evaluated.separator = .undecided then .comma else .space)
        let v := v.insertVarLast restArg argList
        match run v with
        | .error e => .error e
        | .ok (val, v) =>
          if named.isEmpty then .ok (val, v)
          else .error (.panic "argument list mutable")

/-- `Visitor::run_user_defined_callable` (lines 1974–2080): evaluate the
arguments in the caller's state, then perform binding and the body inside
`with_environment(env)` and a fresh scope (`with_scope(false, true, ..)`).
The callable is represented by its argument declaration (its name is only
used for messages not modelled here) and its body by the `run` callback,
exactly as in the source. -/
def Visitor.runUserDefinedCallable {V : Type} (v : Visitor)
    (funcName : String) (arguments : MaybeEvaledArguments)
    (funcArgs : ArgumentDeclaration) (env : Environment)
    (run : Visitor → Except EvalError (V × Visitor)) :
    Except EvalError (V × Visitor) :=
  match v.evalMaybeArgs arguments with
  | .error e => .error e
  | .ok (evaluated, v) =>
    -- the display name computed at lines 1983–1987; dead in the paths
    -- modelled here (its only prospective use is commented out)
    let _name :=
      if funcName = "@content" then funcName else funcName ++ "()"
    let (res, v) :=
      v.withEnvironment env fun v =>
        v.withScope false true
          (asCallback fun v => v.bindAndRun evaluated funcArgs run)
    match res with
    | .error e => .error e
    | .ok val => .ok (val, v)

/-! ## Variable declarations (`visit_variable_decl`) -/

/-- `AstVariableDecl` (namespace, `!default` guard, `!global` flag). -/
structure AstVariableDecl where
  name : Ident
  nspace : Option Ident
  value : AstExpr
  isGuarded : Bool
  isGlobal : Bool
  span : Span

/-- `ModuleConfig::get` (outside `src/`): modelled from the spec as a
lookup in the configured identifier–value mapping. -/
def ModuleConfig.get (cfg : List (Ident × Value)) (name : Ident) :
    Option Value :=
  Scope.getVar cfg name

/-- Lines 1744 and 1746: the deprecation warnings for a `!global`
assignment whose name is not yet in the global scope (texts abbreviated;
the root form notes the flag is unnecessary, the nested form recommends a
null declaration at the root). -/
def globalAssignmentWarningAtRoot : String :=
  "As of Dart Sass 2.0.0, !global assignments cannot declare new variables. Since this assignment is at the root of the stylesheet, the !global flag is unnecessary and can safely be removed."

/-- See `globalAssignmentWarningAtRoot`. -/
def globalAssignmentWarningNested : String :=
  "As of Dart Sass 2.0.0, !global assignments cannot declare new variables. Recommendation: add a null declaration at the stylesheet root."

/-- The `is_guarded` prefix of `visit_variable_decl` (lines 1710–1739):
`some r` means the guarded declaration returns early with `r`.  At the
root with no namespace, a non-null module-configuration override is
applied via `Environment::insert_var` — which is `todo!()` in the source,
hence a panic; otherwise a reachable non-null binding makes the
declaration a no-op. -/
def Visitor.varDeclGuardCheck (v : Visitor) (decl : AstVariableDecl) :
    Option (Except EvalError (Option Value × Visitor)) :=
  if decl.isGuarded then
    let overrideHit :=
      decl.nspace.isNone && v.env.atRoot &&
        (match ModuleConfig.get v.moduleConfig decl.name with
         | some val => !val.isNull
         | none => false)
    if overrideHit then
      some (.error (.panic "Environment::insert_var is todo!()"))
    else if v.env.scopes.varExists v.env.globalScope decl.name then
      match v.env.scopes.getVar v.env.globalScope decl.name with
      | some value => if !value.isNull then some (.ok (none, v)) else none
      | none => none
    else none
  else none

/-- `Visitor::visit_variable_decl` (lines 1709–1781): the `!default`
guard may return early (see `varDeclGuardCheck`); a `!global` declaration
of a name not yet in the global scope warns (with the form depending on
being at the root); then the value is evaluated, slash-stripped, and
written — straight into the global scope when `!global` or at the root,
otherwise through the semi-global-aware scope insertion. -/
def Visitor.visitVariableDecl (v : Visitor) (decl : AstVariableDecl) :
    Except EvalError (Option Value × Visitor) :=
  match v.varDeclGuardCheck decl with
  | some result => result
  | none =>
    let v :=
      if decl.isGlobal && !v.env.globalScope.varExists decl.name then
        if v.env.atRoot then
          v.emitWarning globalAssignmentWarningAtRoot decl.span
        else v.emitWarning globalAssignmentWarningNested decl.span
      else v
    match v.visitExpr decl.value with
    | .error e => .error e
    | .ok (value, v) =>
      let (value, v) := v.withoutSlash value
      if decl.isGlobal || v.env.atRoot then
        .ok (none,
          { v with env :=
              { v.env with
                  globalScope := v.env.globalScope.insertVar decl.name value } })
      else
        let (scopes, globalScope) :=
          v.env.scopes.insertVar v.env.globalScope decl.name value
            (inSemiGlobalScope v.flags)
        .ok (none, { v with env := ⟨scopes, globalScope⟩ })

/-! ## Statements and user-defined function calls -/

/-- The statement fragment exercised by the claims about callable
bodies. -/
inductive AstStmt
  | varDecl (decl : AstVariableDecl)
  | warn (w : AstWarn)
  | debug (d : AstDebugRule)
  | ret (val : AstExpr)

/-- `Visitor::visit_stmt`, restricted to the embedded fragment: `@warn`
and `@debug` always produce `None`; `@return` evaluates its value,
strips the slash marker, and produces `Some` (`visit_return_rule`). -/
def Visitor.visitStmt (ext : Externals) (v : Visitor) :
    AstStmt → Except EvalError (Option Value × Visitor)
  | .varDecl decl => v.visitVariableDecl decl
  | .warn w =>
    match v.visitWarnRule ext.serialize w with
    | .error e => .error e
    | .ok v => .ok (none, v)
  | .debug d =>
    match v.visitDebugRule ext.inspect d with
    | .error e => .error e
    | .ok v => .ok (none, v)
  | .ret e =>
    match v.visitExpr e with
    | .error err => .error err
    | .ok (val, v) =>
      let (val, v) := v.withoutSlash val
      .ok (some val, v)

/-- The body loop shared by callable `run` closures: visit each statement
in order, returning early with the first value produced. -/
def runBody (ext : Externals) :
    List AstStmt → Visitor → Except EvalError (Option Value × Visitor)
  | [], v => .ok (none, v)
  | stmt :: rest, v =>
    match v.visitStmt ext stmt with
    | .error e => .error e
    | .ok (some val, v) => .ok (some val, v)
    | .ok (none, v) => runBody ext rest v

/-- The `run` closure passed by the `SassFunction::UserDefined` arm of
`run_function_callable_with_maybe_evaled` (lines 2115–2133): run the body
statements, returning the first produced value; falling off the end is
the fixed error `"Function finished without @return."` at the call-site
span. -/
def functionRunClosure (ext : Externals) (children : List AstStmt)
    (span : Span) : Visitor → Except EvalError (Value × Visitor) :=
  fun visitor =>
    match runBody ext children visitor with
    | .error e => .error e
    | .ok (some val, v) => .ok (val, v)
    | .ok (none, _) =>
      .error (.sassErr "Function finished without @return." span)

/-- The `SassFunction::UserDefined` arm of
`run_function_callable_with_maybe_evaled`: delegate to
`run_user_defined_callable` with the function's closure environment and
`functionRunClosure`. -/
def Visitor.runFunctionUserDefined (v : Visitor) (ext : Externals)
    (funcName : String) (funcArgs : ArgumentDeclaration)
    (children : List AstStmt) (env : Environment)
    (arguments : MaybeEvaledArguments) (span : Span) :
    Except EvalError (Value × Visitor) :=
  v.runUserDefinedCallable funcName arguments funcArgs env
    (functionRunClosure ext children span)

/-- Forget the final visitor state, keeping the call's result value. -/
def callResult {α : Type} :
    Except EvalError (α × Visitor) → Except EvalError α
  | .ok (a, _) => .ok a
  | .error e => .error e

/-- A unitless numeric value. -/
def numVal (n : ℚ) : Value := .dimension n "" none

/-- Trivial external serializers for closed instances. -/
def extDemo : Externals := ⟨fun _ => "", fun _ => ""⟩

/-- An observer callback exposing the callee-scope bindings of `a` and
`b` at the moment the body would run. -/
def observeAB : Visitor →
    Except EvalError ((Option Value × Option Value) × Visitor) :=
  fun v =>
    .ok ((v.env.scopes.getVar v.env.globalScope "a",
      v.env.scopes.getVar v.env.globalScope "b"), v)

/-- Claim C1: argument binding for user-defined callables — for
declaration `(a, b=2)` invoked with `(1)` the callee scope binds `a=1`
and `b=2` (the default evaluated in the callee's environment); for
declaration `(a, b)` invoked with `(1, b: 3)` the callee sees `a=1` and
`b=3`; for declaration `(a, b)` invoked with `(1, c: 3)` and no rest
parameter, binding fails with an error naming `c`. -/
theorem C1_argument_binding :
    emptyVisitor.runUserDefinedCallable "f"
        (.invocation ⟨[.literal (numVal 1)], [], none, none, 0⟩)
        ⟨[⟨"a", none⟩, ⟨"b", some (.literal (numVal 2))⟩], none⟩
        ⟨Scopes.new, []⟩ observeAB =
      .ok ((some (numVal 1), some (numVal 2)), emptyVisitor)
    ∧ emptyVisitor.runUserDefinedCallable "f"
        (.invocation
          ⟨[.literal (numVal 1)], [("b", .literal (numVal 3))], none, none,
            0⟩)
        ⟨[⟨"a", none⟩, ⟨"b", none⟩], none⟩ ⟨Scopes.new, []⟩ observeAB =
      .ok ((some (numVal 1), some (numVal 3)), emptyVisitor)
    ∧ emptyVisitor.runUserDefinedCallable "f"
        (.invocation
          ⟨[.literal (numVal 1)], [("c", .literal (numVal 3))], none, none,
            0⟩)
        ⟨[⟨"a", none⟩, ⟨"b", none⟩], none⟩ ⟨Scopes.new, []⟩ observeAB =
      .error (.sassErr "No argument named $c." 0) := by
  refine ⟨?_, ?_, ?_⟩ <;> rfl

/-- Claim C5 (amended): a user-defined function call whose body finishes
without executing `@return` fails with the fixed fatal error
`"Function finished without @return."` carrying the call-site span — the
function name is not part of the error; when some statement of the body
yields a return value, the call evaluates to that value. -/
theorem C5_function_return (ext : Externals) (funcName : String)
    (children : List AstStmt) (span : Span) (v : Visitor)
    (env : Environment) :
    ((∀ w, runBody ext children w = .ok (none, w)) →
        callResult
            (v.runFunctionUserDefined ext funcName ⟨[], none⟩ children env
              (.invocation ⟨[], [], none, none, 0⟩) span) =
          .error (.sassErr "Function finished without @return." span))
      ∧ ∀ val : Value, (∀ w, runBody ext children w = .ok (some val, w)) →
          callResult
              (v.runFunctionUserDefined ext funcName ⟨[], none⟩ children env
                (.invocation ⟨[], [], none, none, 0⟩) span) =
            .ok val := by
  constructor
  · intro hbody
    simp [Visitor.runFunctionUserDefined, Visitor.runUserDefinedCallable,
      Visitor.evalMaybeArgs, Visitor.evalArgs, Visitor.evalPositionalArgs,
      Visitor.evalNamedArgs, Visitor.bindAndRun, ArgumentDeclaration.verify,
      Visitor.bindDefaults, asCallback, Visitor.withEnvironment,
      Visitor.withScope, functionRunClosure, hbody, callResult]
  · intro val hbody
    simp [Visitor.runFunctionUserDefined, Visitor.runUserDefinedCallable,
      Visitor.evalMaybeArgs, Visitor.evalArgs, Visitor.evalPositionalArgs,
      Visitor.evalNamedArgs, Visitor.bindAndRun, ArgumentDeclaration.verify,
      Visitor.bindDefaults, asCallback, Visitor.withEnvironment,
      Visitor.withScope, functionRunClosure, hbody, callResult]

/-- Counterexample to claim C5 as stated: the fall-off-the-end error does
not identify the function name — two calls differing only in the function
name produce identical errors, each the fixed message plus call-site
span. -/
theorem C5_counterexample :
    emptyVisitor.runFunctionUserDefined extDemo "foo" ⟨[], none⟩ []
          ⟨Scopes.new, []⟩ (.invocation ⟨[], [], none, none, 0⟩) 42 =
        .error (.sassErr "Function finished without @return." 42)
      ∧ emptyVisitor.runFunctionUserDefined extDemo "bar" ⟨[], none⟩ []
            ⟨Scopes.new, []⟩ (.invocation ⟨[], [], none, none, 0⟩) 42 =
          emptyVisitor.runFunctionUserDefined extDemo "foo" ⟨[], none⟩ []
            ⟨Scopes.new, []⟩ (.invocation ⟨[], [], none, none, 0⟩) 42 :=
  ⟨rfl, rfl⟩

/-- Closed-form instance of `C5_function_return` at an empty body and at
a body that returns `1`. -/
theorem C5_function_return_witness :
    callResult
        (emptyVisitor.runFunctionUserDefined extDemo "foo" ⟨[], none⟩ []
          ⟨Scopes.new, []⟩ (.invocation ⟨[], [], none, none, 0⟩) 42) =
      .error (.sassErr "Function finished without @return." 42)
    ∧ callResult
        (emptyVisitor.runFunctionUserDefined extDemo "foo" ⟨[], none⟩
          [.ret (.literal (numVal 1))] ⟨Scopes.new, []⟩
          (.invocation ⟨[], [], none, none, 0⟩) 42) =
      .ok (numVal 1) :=
  ⟨(C5_function_return extDemo "foo" [] 42 emptyVisitor ⟨Scopes.new, []⟩).1
      (fun _ => rfl),
    (C5_function_return extDemo "foo" [.ret (.literal (numVal 1))] 42
        emptyVisitor ⟨Scopes.new, []⟩).2 (numVal 1) (fun _ => rfl)⟩

/-- A visitor inside one open (non-root) scope, with an empty global
scope. -/
def nestedVisitor : Visitor := { emptyVisitor with env := ⟨⟨[[]]⟩, []⟩ }

/-- Claim C8 (amended): a `!global` declaration at non-root scope emits a
deprecation warning when the name is not already present in the global
scope, and writes the value through to the global scope regardless of
whether the name already exists there (a brand-new global declared via
`!global` from nested scope is deprecated but not rejected). -/
theorem C8_global_decl (v : Visitor) (name : Ident) (val : Value)
    (sp : Span) (hroot : v.env.atRoot = false) (hq : v.quiet = false)
    (hslash : val.hasSlash = false) :
    (v.env.globalScope.varExists name = false →
        v.visitVariableDecl ⟨name, none, .literal val, false, true, sp⟩ =
          .ok (none,
            { v with
                env :=
                  { v.env with
                      globalScope :=
                        v.env.globalScope.insertVar name val.withoutSlash },
                output :=
                  v.output ++ [(globalAssignmentWarningNested, sp)] }))
      ∧ (v.env.globalScope.varExists name = true →
          v.visitVariableDecl ⟨name, none, .literal val, false, true, sp⟩ =
            .ok (none,
              { v with
                  env :=
                    { v.env with
                        globalScope :=
                          v.env.globalScope.insertVar name
                            val.withoutSlash } })) := by
  constructor
  · intro hexists
    simp [Visitor.visitVariableDecl, Visitor.varDeclGuardCheck, hroot, hq,
      hslash, hexists, Visitor.visitExpr, Visitor.withoutSlash,
      Visitor.emitWarning]
  · intro hexists
    simp [Visitor.visitVariableDecl, Visitor.varDeclGuardCheck, hroot, hq,
      hslash, hexists, Visitor.visitExpr, Visitor.withoutSlash,
      Visitor.emitWarning]

/-- Counterexample to claim C8 as stated: from a nested scope, a
`!global` declaration of a name absent from the global scope still
writes through — the global scope changes from empty to holding the
binding (while the deprecation warning is emitted), contradicting "writes
through to the global scope only if that name already exists there". -/
theorem C8_counterexample :
    nestedVisitor.env.globalScope.varExists "a" = false
      ∧ nestedVisitor.visitVariableDecl
            ⟨"a", none, .literal (numVal 1), false, true, 5⟩ =
          .ok (none,
            { nestedVisitor with
                env := ⟨⟨[[]]⟩, [("a", numVal 1)]⟩,
                output := [(globalAssignmentWarningNested, 5)] })
      ∧ ¬(([("a", numVal 1)] : Scope) = nestedVisitor.env.globalScope) := by
  refine ⟨rfl, rfl, ?_⟩
  simp [nestedVisitor, emptyVisitor]

/-- Closed-form instance of `C8_global_decl` with all hypotheses
discharged. -/
theorem C8_global_decl_witness :
    nestedVisitor.visitVariableDecl
        ⟨"b", none, .literal (numVal 2), false, true, 3⟩ =
      .ok (none,
        { nestedVisitor with
            env := ⟨⟨[[]]⟩, [("b", numVal 2)]⟩,
            output := [(globalAssignmentWarningNested, 3)] }) :=
  (C8_global_decl nestedVisitor "b" (numVal 2) 3 rfl rfl rfl).1 rfl

/-- A root visitor whose module configuration supplies `a = 2`. -/
def configuredVisitor : Visitor :=
  { emptyVisitor with moduleConfig := [("a", numVal 2)] }

/-- Claim C4: a `!default` declaration is a no-op exactly when a non-null
binding of the name is reachable, and otherwise behaves like the same
declaration without the guard — except that the module-configuration
override path, checked first at the root, reaches
`Environment::insert_var`, which is `todo!()` in the source and panics
instead of applying the override. -/
theorem C4_default_guard :
    (configuredVisitor.visitVariableDecl
          ⟨"a", none, .literal (numVal 1), true, false, 9⟩ =
        .error (.panic "Environment::insert_var is todo!()"))
      ∧ (∀ (v : Visitor) (name : Ident) (e : AstExpr) (isGlobal : Bool)
            (sp : Span) (value : Value),
          (ModuleConfig.get v.moduleConfig name = none ∨
              ModuleConfig.get v.moduleConfig name = some .null) →
            v.env.scopes.getVar v.env.globalScope name = some value →
              value.isNull = false →
                v.visitVariableDecl ⟨name, none, e, true, isGlobal, sp⟩ =
                  .ok (none, v))
      ∧ ∀ (v : Visitor) (name : Ident) (nsp : Option Ident) (e : AstExpr)
          (isGlobal : Bool) (sp : Span),
          (ModuleConfig.get v.moduleConfig name = none ∨
              ModuleConfig.get v.moduleConfig name = some .null) →
            (v.env.scopes.getVar v.env.globalScope name = none ∨
                v.env.scopes.getVar v.env.globalScope name = some .null) →
              v.visitVariableDecl ⟨name, nsp, e, true, isGlobal, sp⟩ =
                v.visitVariableDecl ⟨name, nsp, e, false, isGlobal, sp⟩ := by
  refine ⟨rfl, ?_, ?_⟩
  · intro v name e isGlobal sp value hcfg hvar hnn
    rcases hcfg with hc | hc <;>
      simp [Visitor.visitVariableDecl, Visitor.varDeclGuardCheck, hc, hvar,
        hnn, Scopes.varExists, show Value.null.isNull = true from rfl]
  · intro v name nsp e isGlobal sp hcfg hvar
    have hguard :
        v.varDeclGuardCheck ⟨name, nsp, e, true, isGlobal, sp⟩ = none := by
      rcases hcfg with hc | hc <;> rcases hvar with h | h <;>
        simp [Visitor.varDeclGuardCheck, hc, h, Scopes.varExists,
          show Value.null.isNull = true from rfl]
    rw [Visitor.visitVariableDecl, hguard, Visitor.visitVariableDecl]
    rfl

/-! ## Claim C6: `eval_args` rest handling -/

/-- Spread values: a map, list, or argument list passed through `...`
distributes; any other value is appended positionally. -/
def Value.isSpreadable : Value → Bool
  | .map _ => true
  | .list _ _ _ => true
  | .argList _ _ _ => true
  | _ => false

theorem withoutSlashList_clean (v : Visitor) (elems acc : List Value)
    (h : ∀ x ∈ elems, x.hasSlash = false) :
    v.withoutSlashList elems acc =
      (acc ++ elems.map Value.withoutSlash, v) := by
  induction elems generalizing acc with
  | nil => simp [Visitor.withoutSlashList]
  | cons x rest ih =>
    have hx : x.hasSlash = false := h x (by simp)
    rw [Visitor.withoutSlashList, Visitor.withoutSlash, hx]
    simp only [Bool.false_eq_true, if_false, ite_false]
    rw [ih _ (fun y hy => h y (by simp [hy]))]
    simp

theorem addRestMap_strKeys (named : List (Ident × Value))
    (entries : List (Ident × Value)) :
    addRestMap named
        (entries.map fun p => ((Value.str p.1 .noQuote), p.2)) =
      .ok (entries.foldl (fun acc p => Scope.insertVar acc p.1 p.2) named) := by
  induction entries generalizing named with
  | nil => simp [addRestMap]
  | cons p rest ih =>
    rw [List.map_cons, addRestMap]
    simp only [List.foldl_cons]
    exact ih _

theorem argListKeywords_clean (v : Visitor)
    (keywords : List (Ident × Value)) (named : List (Ident × Value))
    (h : ∀ p ∈ keywords, (p.2 : Value).hasSlash = false) :
    keywords.foldl
        (fun (acc : List (Ident × Value) × Visitor) kv =>
          let (val, v) := acc.2.withoutSlash kv.2
          (Scope.insertVar acc.1 kv.1 val, v))
        (named, v) =
      (keywords.foldl
          (fun acc kv => Scope.insertVar acc kv.1 kv.2.withoutSlash) named,
        v) := by
  induction keywords generalizing named with
  | nil => simp
  | cons p rest ih =>
    simp only [List.foldl_cons]
    rw [show v.withoutSlash p.2 = (p.2.withoutSlash, v) by
      rw [Visitor.withoutSlash, h p (by simp)]
      simp]
    exact ih _ (fun q hq => h q (by simp [hq]))

/-- Claim C6 (amended): in `eval_args` with a rest expression present, a
map value contributes its entries as named arguments; a list value
contributes its elements positionally; an argument-list value contributes
its elements positionally and its captured keywords as named arguments;
any other single value is appended positionally.  The spread list's (or
argument list's) separator is kept in the resulting `ArgumentResult` only
when a keyword-rest expression is also present; with no keyword-rest
expression the returned separator is `Undecided`. -/
theorem C6_eval_args_rest (v : Visitor) (sp : Span) :
    (∀ entries : List (Ident × Value),
        v.evalArgs
            ⟨[], [],
              some (.literal
                (.map (entries.map fun p => ((Value.str p.1 .noQuote), p.2)))),
              none, sp⟩ =
          .ok
            (⟨[],
              entries.foldl (fun acc p => Scope.insertVar acc p.1 p.2) [],
              .undecided, sp, []⟩, v))
      ∧ (∀ (elems : List Value) (sep : ListSeparator) (br : Bool),
          (∀ x ∈ elems, x.hasSlash = false) →
            v.evalArgs
                ⟨[], [], some (.literal (.list elems sep br)), none, sp⟩ =
              .ok (⟨elems.map Value.withoutSlash, [], .undecided, sp, []⟩, v))
      ∧ (∀ (elems : List Value) (sep : ListSeparator) (br : Bool),
          (∀ x ∈ elems, x.hasSlash = false) →
            v.evalArgs
                ⟨[], [], some (.literal (.list elems sep br)),
                  some (.literal (.map [])), sp⟩ =
              .ok (⟨elems.map Value.withoutSlash, [], sep, sp, []⟩, v))
      ∧ (∀ (elems : List Value) (keywords : List (Ident × Value))
            (sep : ListSeparator),
          (∀ x ∈ elems, x.hasSlash = false) →
            (∀ p ∈ keywords, (p.2 : Value).hasSlash = false) →
              v.evalArgs
                  ⟨[], [], some (.literal (.argList elems keywords sep)),
                    none, sp⟩ =
                .ok
                  (⟨elems.map Value.withoutSlash,
                    keywords.foldl
                      (fun acc kv => Scope.insertVar acc kv.1 kv.2.withoutSlash)
                      [],
                    .undecided, sp, []⟩, v))
      ∧ ∀ val : Value, val.isSpreadable = false → val.hasSlash = false →
          v.evalArgs ⟨[], [], some (.literal val), none, sp⟩ =
            .ok (⟨[val.withoutSlash], [], .undecided, sp, []⟩, v) := by
  refine ⟨?_, ?_, ?_, ?_, ?_⟩
  · intro entries
    simp [Visitor.evalArgs, Visitor.evalPositionalArgs,
      Visitor.evalNamedArgs, Visitor.visitExpr, addRestMap_strKeys]
  · intro elems sep br h
    simp [Visitor.evalArgs, Visitor.evalPositionalArgs,
      Visitor.evalNamedArgs, Visitor.visitExpr,
      withoutSlashList_clean v elems [] h]
  · intro elems sep br h
    simp [Visitor.evalArgs, Visitor.evalPositionalArgs,
      Visitor.evalNamedArgs, Visitor.visitExpr,
      withoutSlashList_clean v elems [] h, addRestMap]
  · intro elems keywords sep h hk
    simp [Visitor.evalArgs, Visitor.evalPositionalArgs,
      Visitor.evalNamedArgs, Visitor.visitExpr,
      withoutSlashList_clean v elems [] h, argListKeywords_clean v keywords [] hk]
  · intro val hspread hslash
    cases val <;> simp_all [Visitor.evalArgs, Visitor.evalPositionalArgs,
      Visitor.evalNamedArgs, Visitor.visitExpr, Visitor.withoutSlash,
      Value.isSpreadable]

/-- Counterexample to claim C6 as stated: spreading a space-separated
list with no keyword-rest expression yields an `ArgumentResult` whose
separator is `Undecided`, not the list's remembered separator. -/
theorem C6_counterexample :
    emptyVisitor.evalArgs
        ⟨[], [],
          some (.literal (.list [numVal 1, numVal 2] .space false)), none,
          0⟩ =
      .ok (⟨[numVal 1, numVal 2], [], .undecided, 0, []⟩, emptyVisitor)
    ∧ ListSeparator.undecided ≠ ListSeparator.space := ⟨rfl, by decide⟩

/-- Closed-form instance of `C6_eval_args_rest`. -/
theorem C6_eval_args_rest_witness :
    emptyVisitor.evalArgs
        ⟨[], [],
          some (.literal (.list [numVal 1] .space false)),
          some (.literal (.map [])), 0⟩ =
      .ok (⟨[numVal 1], [], .space, 0, []⟩, emptyVisitor) :=
  (C6_eval_args_rest emptyVisitor 0).2.2.1 [numVal 1] .space false
    (by intro x hx; simp at hx; rw [hx]; rfl)

/-! ## Claim C3: media query merging (`merge_media_queries`,
`visit_media_rule`) -/

/-- The inner loop of `merge_media_queries` (fixed `query1`, iterating
`query2` over the second set, accumulating successful merges). -/
def mergeInner (merge : MediaQuery → MediaQuery → MediaQueryMergeResult)
    (query1 : MediaQuery) :
    List MediaQuery → List MediaQuery → Option (List MediaQuery)
  | [], acc => some acc
  | query2 :: rest, acc =>
    match merge query1 query2 with
    | .empty => mergeInner merge query1 rest acc
    | .unrepresentable => none
    | .success result => mergeInner merge query1 rest (acc ++ [result])

/-- The outer loop of `merge_media_queries`. -/
def mergeOuter (merge : MediaQuery → MediaQuery → MediaQueryMergeResult)
    (queries2 : List MediaQuery) :
    List MediaQuery → List MediaQuery → Option (List MediaQuery)
  | [], acc => some acc
  | query1 :: rest, acc =>
    match mergeInner merge query1 queries2 acc with
    | none => none
    | some acc => mergeOuter merge queries2 rest acc

/-- `Visitor::merge_media_queries` (lines 1082–1099): pairwise merge over
the nested loops, dropping `Empty` pairs, voiding everything on an
`Unrepresentable` pair.  The external `MediaQuery::merge` is the
parameter `merge`. -/
def mergeMediaQueries
    (merge : MediaQuery → MediaQuery → MediaQueryMergeResult)
    (queries1 queries2 : List MediaQuery) : Option (List MediaQuery) :=
  mergeOuter merge queries2 queries1 []

/-- The ordered cross product of two query sets. -/
def crossPairs (qs1 qs2 : List MediaQuery) :
    List (MediaQuery × MediaQuery) :=
  qs1.foldr (fun q1 acc => qs2.map (fun q2 => (q1, q2)) ++ acc) []

/-- Whether a pairwise merge result is structurally irreconcilable. -/
def isUnrepresentable : MediaQueryMergeResult → Bool
  | .unrepresentable => true
  | _ => false

/-- The merged query a successful pairwise merge produces. -/
def successOf : MediaQueryMergeResult → Option MediaQuery
  | .success q => some q
  | _ => none

/-- What the claim says the merge computes: a pairwise pass over the
cross product in which empty pairs are dropped and any single
irreconcilable pair voids the whole merge. -/
def mergeMediaQueriesSpec
    (merge : MediaQuery → MediaQuery → MediaQueryMergeResult)
    (qs1 qs2 : List MediaQuery) : Option (List MediaQuery) :=
  let pairs := crossPairs qs1 qs2
  if pairs.any (fun p => isUnrepresentable (merge p.1 p.2)) then none
  else some (pairs.filterMap fun p => successOf (merge p.1 p.2))

theorem exitScope_enterNewScope (sc : Scopes) :
    sc.enterNewScope.exitScope = sc := rfl

theorem listAnyMap {α β : Type} (f : α → β) (l : List α) (p : β → Bool) :
    (l.map f).any p = l.any fun a => p (f a) := by
  induction l with
  | nil => rfl
  | cons x xs ih => simp [ih]

theorem mergeInner_spec
    (merge : MediaQuery → MediaQuery → MediaQueryMergeResult)
    (query1 : MediaQuery) (qs2 acc : List MediaQuery) :
    mergeInner merge query1 qs2 acc =
      if qs2.any (fun q2 => isUnrepresentable (merge query1 q2)) then none
      else
        some (acc ++ qs2.filterMap fun q2 => successOf (merge query1 q2)) := by
  induction qs2 generalizing acc with
  | nil => simp [mergeInner]
  | cons q2 rest ih =>
    rw [mergeInner]
    cases h : merge query1 q2 <;>
      simp [h, isUnrepresentable, successOf, ih, List.filterMap_cons]

theorem mergeOuter_spec
    (merge : MediaQuery → MediaQuery → MediaQueryMergeResult)
    (qs2 : List MediaQuery) (qs1 acc : List MediaQuery) :
    mergeOuter merge qs2 qs1 acc =
      if (crossPairs qs1 qs2).any
          (fun p => isUnrepresentable (merge p.1 p.2)) then none
      else
        some (acc ++
          (crossPairs qs1 qs2).filterMap fun p => successOf (merge p.1 p.2)) := by
  induction qs1 generalizing acc with
  | nil => simp [mergeOuter, crossPairs]
  | cons q1 rest ih =>
    have hcross : crossPairs (q1 :: rest) qs2 =
        qs2.map (fun q2 => (q1, q2)) ++ crossPairs rest qs2 := rfl
    have hmapany : ((qs2.map fun q2 => (q1, q2)).any
        fun p => isUnrepresentable (merge p.1 p.2)) =
          (qs2.any fun q2 => isUnrepresentable (merge q1 q2)) := by
      rw [listAnyMap]
    have hmapfil : ((qs2.map fun q2 => (q1, q2)).filterMap
        fun p => successOf (merge p.1 p.2)) =
          (qs2.filterMap fun q2 => successOf (merge q1 q2)) := by
      rw [List.filterMap_map]
      rfl
    rw [mergeOuter, mergeInner_spec]
    cases h2 : (qs2.any fun q2 => isUnrepresentable (merge q1 q2)) with
    | true =>
      rw [if_pos rfl]
      show (none : Option (List MediaQuery)) = _
      rw [hcross, List.any_append, hmapany, h2, Bool.true_or, if_pos rfl]
    | false =>
      rw [if_neg (by simp)]
      show mergeOuter merge qs2 rest
          (acc ++ qs2.filterMap fun q2 => successOf (merge q1 q2)) = _
      rw [ih, hcross, List.any_append, List.filterMap_append, hmapany,
        hmapfil, h2, Bool.false_or]
      cases h3 : ((crossPairs rest qs2).any
          fun p => isUnrepresentable (merge p.1 p.2)) <;>
        simp [List.append_assoc]

/-- `ContextFlags::AT_ROOT_EXCLUDING_STYLE_RULE = 1 << 10`. -/
def atRootExcludingStyleRuleMask : Nat := 1 <<< 10

/-- `Visitor::style_rule_exists`. -/
def Visitor.styleRuleExists (v : Visitor) : Bool :=
  !flagsGet v.flags atRootExcludingStyleRuleMask &&
    v.styleRuleIgnoringAtRoot.isSome

/-- `IndexSet::extend`: ordered, duplicate-eliminating insertion. -/
def indexSetExtend (acc xs : List MediaQuery) : List MediaQuery :=
  xs.foldl (fun acc x => if acc.contains x then acc else acc ++ [x]) acc

/-- The `query.to_string().join(", ")` step of `visit_media_rule`
(`Display` for `MediaQuery` is external, passed as `mqToString`). -/
def joinQueries (mqToString : MediaQuery → String)
    (qs : List MediaQuery) : String :=
  String.intercalate ", " (qs.map mqToString)

/-- `Visitor::visit_media_rule` (lines 1107–1202), with the already
parsed queries of the rule passed as `queries1`
(`visit_media_queries` is interpolation plus parsing, external to the
claims) and the visitation of the rule's body abstracted as
`visitChildren`.  Merging happens against the active query set; a merge
that succeeds with an empty set drops the rule before anything is added
to the CSS tree; a failed (voided) merge falls back to `queries1`.  The
media statement is always added at the root, and the body runs under
`with_parent`/`with_media_queries`, nesting a clone of the open style
rule when one exists. -/
def Visitor.visitMediaRule (v : Visitor)
    (merge : MediaQuery → MediaQuery → MediaQueryMergeResult)
    (mqToString : MediaQuery → String) (queries1 : List MediaQuery)
    (visitChildren : Visitor → Except EvalError Unit × Visitor) :
    Except EvalError (Option Value × Visitor) :=
  if v.declarationName.isSome then
    .error (.panic "Media rules may not be used within nested declarations.")
  else
    let queries2 := v.mediaQueries
    let mergedQueries :=
      queries2.bind fun queries2 => mergeMediaQueries merge queries2 queries1
    match mergedQueries with
    | some [] => .ok (none, v)
    | _ =>
      let mergedSources : Except EvalError (List MediaQuery) :=
        match mergedQueries with
        | some _ =>
          match v.mediaQuerySources, v.mediaQueries with
          | some sources, some queries =>
            .ok (indexSetExtend
              (indexSetExtend (indexSetExtend [] sources) queries) queries1)
          | _, _ => .error (.panic "Option::unwrap on a None value")
        | none => .ok []
      match mergedSources with
      | .error e => .error e
      | .ok mergedSources =>
        let query := mergedQueries.getD queries1
        let mediaRule :=
          Stmt.media (joinQueries mqToString query) [] v.styleRuleExists
        let (t, parentIdx) := v.cssTree.addStmt mediaRule none
        let v := { v with cssTree := t }
        let (res, v) := v.withParent parentIdx true fun v =>
          v.withMediaQueries (some query) (some mergedSources) fun v =>
            if !v.styleRuleExists then visitChildren v
            else
              match v.styleRuleIgnoringAtRoot with
              | none => (.error (.panic "Option::unwrap on a None value"), v)
              | some selector =>
                let ruleset := Stmt.ruleSet selector []
                let (t, parentIdx) := v.cssTree.addStmt ruleset v.parent
                let v := { v with cssTree := t }
                v.withParent parentIdx false visitChildren
        match res with
        | .error e => .error e
        | .ok _ => .ok (none, v)

/-- Claim C3: media-query merging over two query sets is pairwise over
the cross product — pairs that merge to empty are dropped and any single
irreconcilable pair voids the whole merge; a voided merge makes the
`@media` rule fall back to its own unmerged queries (the rule is still
emitted, nested under the active set); a merge that succeeds with an
empty query set makes the rule produce no output statement at all. -/
theorem C3_media_query_merge :
    (∀ (merge : MediaQuery → MediaQuery → MediaQueryMergeResult)
        (qs1 qs2 : List MediaQuery),
        mergeMediaQueries merge qs1 qs2 = mergeMediaQueriesSpec merge qs1 qs2)
      ∧ (∀ (merge : MediaQuery → MediaQuery → MediaQueryMergeResult)
          (mqToString : MediaQuery → String)
          (queries1 qs2 : List MediaQuery) (v : Visitor),
          v.declarationName = none → v.styleRuleIgnoringAtRoot = none →
            v.mediaQueries = some qs2 →
              mergeMediaQueries merge qs2 queries1 = none →
                v.visitMediaRule merge mqToString queries1
                    (fun w => (.ok (), w)) =
                  .ok (none,
                    { v with
                        cssTree :=
                          (v.cssTree.addStmt
                            (Stmt.media (joinQueries mqToString queries1) []
                              false) none).1,
                        flags :=
                          flagsSet
                            (flagsSet v.flags inSemiGlobalScopeMask false)
                            inSemiGlobalScopeMask
                            (inSemiGlobalScope v.flags) }))
      ∧ ∀ (merge : MediaQuery → MediaQuery → MediaQueryMergeResult)
          (mqToString : MediaQuery → String)
          (queries1 qs2 : List MediaQuery) (v : Visitor)
          (visitChildren : Visitor → Except EvalError Unit × Visitor),
          v.declarationName = none → v.mediaQueries = some qs2 →
            mergeMediaQueries merge qs2 queries1 = some [] →
              v.visitMediaRule merge mqToString queries1 visitChildren =
                .ok (none, v) := by
  refine ⟨?_, ?_, ?_⟩
  · intro merge qs1 qs2
    rw [mergeMediaQueries, mergeOuter_spec, mergeMediaQueriesSpec]
    simp
  · intro merge mqToString queries1 qs2 v hd hsr hq2 hmerge
    simp [Visitor.visitMediaRule, hd, hsr, hq2, hmerge,
      Visitor.styleRuleExists, Visitor.withParent, Visitor.withScope,
      Visitor.withMediaQueries, exitScope_enterNewScope]
  · intro merge mqToString queries1 qs2 v visitChildren hd hq2 hmerge
    simp [Visitor.visitMediaRule, hd, hq2, hmerge]

/-- A concrete merge operation on the opaque queries: `0` cancels any
pair, `1` is irreconcilable with anything, and other pairs merge to their
sum. -/
def mergeDemo : MediaQuery → MediaQuery → MediaQueryMergeResult :=
  fun q1 q2 =>
    if q1 = 0 || q2 = 0 then .empty
    else if q1 = 1 || q2 = 1 then .unrepresentable
    else .success (q1 + q2)

/-- A visitor evaluating inside an active media query set `[2]`. -/
def mediaVisitor : Visitor :=
  { emptyVisitor with mediaQueries := some [2], mediaQuerySources := some [] }

/-- A visitor evaluating inside an active media query set `[0]` (which
`mergeDemo` cancels against everything). -/
def mediaVisitorZero : Visitor :=
  { emptyVisitor with mediaQueries := some [0], mediaQuerySources := some [] }

/-- Closed-form instance of `C3_media_query_merge`: an irreconcilable
pair voids the merge and the rule is still emitted with its own queries;
an all-cancelled merge yields the empty set and the rule is dropped with
no output statement. -/
theorem C3_media_query_merge_witness :
    mediaVisitor.visitMediaRule mergeDemo (fun q => toString q) [1]
        (fun w => (.ok (), w)) =
      .ok (none,
        { mediaVisitor with
            cssTree :=
              ⟨[none, some (Stmt.media "1" [] false)], [(0, [1])],
                [(1, 0)]⟩ })
    ∧ mediaVisitorZero.visitMediaRule mergeDemo (fun q => toString q) [5]
        (fun w => (.ok (), w)) =
      .ok (none, mediaVisitorZero) :=
  ⟨C3_media_query_merge.2.1 mergeDemo (fun q => toString q) [1] [2]
      mediaVisitor rfl rfl rfl rfl,
    C3_media_query_merge.2.2 mergeDemo (fun q => toString q) [5] [0]
      mediaVisitorZero (fun w => (.ok (), w)) rfl rfl rfl⟩

/-! ## Claim C7: `CssTree::finish` / `CssTree::apply_children`

During `finish` the slot vector is mutated while its length and the
parent/child maps stay fixed; the slots are therefore modelled as a
function from index to optional statement, materialized back into a list
at the end. -/

/-- Whether a statement kind can receive children in
`add_child_to_parent` (the `unreachable!` arms are `Style`, `Comment`
and `Import`). -/
def Stmt.isNestable : Stmt → Bool
  | .style _ _ => false
  | .comment _ _ => false
  | .cssImport _ => false
  | _ => true

/-- Append statements at the end of a statement's body; the kinds with no
body are returned unchanged (never reached on valid trees). -/
def Stmt.appendBody : Stmt → List Stmt → Stmt
  | .ruleSet sel body, kids => .ruleSet sel (body ++ kids)
  | .media q body b, kids => .media q (body ++ kids) b
  | .unknownAtRule n body, kids => .unknownAtRule n (body ++ kids)
  | .supports p body, kids => .supports p (body ++ kids)
  | .keyframes n body, kids => .keyframes n (body ++ kids)
  | .keyframesRuleSet sel body, kids => .keyframesRuleSet sel (body ++ kids)
  | s, _ => s

/-- The variant match of `CssTree::add_child_to_parent`: push one child
into the parent's body, `none` for the `unreachable!` kinds. -/
def Stmt.pushBody (parent child : Stmt) : Option Stmt :=
  if parent.isNestable then some (parent.appendBody [child]) else none

theorem appendBody_nil (s : Stmt) : s.appendBody [] = s := by
  cases s <;> simp [Stmt.appendBody]

theorem appendBody_append (s : Stmt) (xs ys : List Stmt) :
    (s.appendBody xs).appendBody ys = s.appendBody (xs ++ ys) := by
  cases s <;> simp [Stmt.appendBody]

theorem isNestable_appendBody (s : Stmt) (xs : List Stmt) :
    (s.appendBody xs).isNestable = s.isNestable := by
  cases s <;> simp [Stmt.appendBody, Stmt.isNestable]

/-- The slot vector as a total lookup (out-of-range reads are `none`,
matching a tombstone). -/
def slotFun (stmts : List (Option Stmt)) : Nat → Option Stmt :=
  fun i => stmts.getD i none

/-- `CssTree::add_child_to_parent` on the functional slot state: take the
parent slot (`None` is the source's `todo!()`), push the child into its
body (`unreachable!` kinds fail), and put it back. -/
def addChildToParentF (S : Nat → Option Stmt) (child : Stmt)
    (parentIdx : Nat) : Option (Nat → Option Stmt) :=
  match S parentIdx with
  | none => none
  | some parent =>
    (parent.pushBody child).map fun p =>
      fun j => if j = parentIdx then some p else S j

/-- The recursion of `CssTree::apply_children`: walk the parent's child
list in order; a child that itself has children is compacted first
(`apply_children(child)`); then the child slot is taken (tombstoned) and
its statement appended to the parent's body.  The fuel argument (absent
in the source, whose recursion is bounded by the tree structure) only
bounds the number of recursive calls; `finish` passes a value the
correctness theorem shows is always enough. -/
def applyGo (p2c : List (Nat × List Nat)) :
    Nat → Nat → List Nat → (Nat → Option Stmt) →
      Option (Nat → Option Stmt)
  | _, _, [], S => some S
  | 0, _, _ :: _, _ => none
  | fuel + 1, parent, child :: rest, S =>
    let afterDescend : Option (Nat → Option Stmt) :=
      match assocGet p2c child with
      | some grandchildren => applyGo p2c fuel child grandchildren S
      | none => some S
    match afterDescend with
    | none => none
    | some S =>
      match S child with
      | some c =>
        match addChildToParentF (fun j => if j = child then none else S j)
            c parent with
        | none => none
        | some S => applyGo p2c fuel parent rest S
      | none => applyGo p2c fuel parent rest S

/-- `CssTree::apply_children` proper: look up the parent's child list
(the unguarded `BTreeMap` indexing of the source) and process it. -/
def applyChildrenF (p2c : List (Nat × List Nat)) (fuel : Nat)
    (S : Nat → Option Stmt) (parent : Nat) :
    Option (Nat → Option Stmt) :=
  match assocGet p2c parent with
  | none => none
  | some children => applyGo p2c fuel parent children S

/-- The `while idx < self.stmts.len() - 1` loop of `CssTree::finish`,
over the explicit list of indices: tombstoned or childless slots are
skipped, every other slot has its children applied. -/
def finishLoop (p2c : List (Nat × List Nat)) (fuel : Nat) :
    List Nat → (Nat → Option Stmt) → Option (Nat → Option Stmt)
  | [], S => some S
  | idx :: rest, S =>
    if (S idx).isNone || !CssTree.hasChildrenMap p2c idx then
      finishLoop p2c fuel rest S
    else
      match applyChildrenF p2c fuel S idx with
      | none => none
      | some S => finishLoop p2c fuel rest S

/-- `CssTree::finish` (lines 85–103): run the compaction loop over
indices `1 .. len - 2`, then collect the surviving slots in index
order (`filter_map` over the slot vector). -/
def CssTree.finish (t : CssTree) : Option (List Stmt) :=
  let n := t.stmts.length
  match finishLoop t.parentToChild (n * n + n) (List.range' 1 (n - 2))
      (slotFun t.stmts) with
  | none => none
  | some S => some ((List.range n).filterMap S)

/-- `CssTree::build`: a tree produced by a sequence of `add_stmt`
calls starting from the empty tree. -/
def CssTree.build (ops : List (Stmt × Option Nat)) : CssTree :=
  ops.foldl (fun t op => (t.addStmt op.1 op.2).1) CssTree.new

/-- The parent index each build operation names (`None` is the root). -/
def opParent (op : Stmt × Option Nat) : Nat := op.2.getD 0

/-- The parent function a build trace induces: node `c ≥ 1` was created
by operation `c - 1`; everything else points at the root. -/
def pfOps (ops : List (Stmt × Option Nat)) (c : Nat) : Nat :=
  if c = 0 then 0
  else
    match ops[c - 1]? with
    | some op => opParent op
    | none => 0

/-- A build trace is valid when every operation's parent names the root
or an already-existing node of nestable kind ("every node added under
its real parent"). -/
def validOps (ops : List (Stmt × Option Nat)) : Bool :=
  (List.range ops.length).all fun k =>
    match ops[k]? with
    | some op =>
      decide (opParent op ≤ k) &&
        (opParent op == 0 ||
          match ops[opParent op - 1]? with
          | some parentOp => parentOp.1.isNestable
          | none => false)
    | none => true

/-- The nested statement an index denotes once compaction has run: the
original statement with each child, in child-list order, assembled
recursively and appended to its body. -/
def assembleF (p2c : List (Nat × List Nat)) (S₀ : Nat → Option Stmt) :
    Nat → Nat → Option Stmt
  | 0, _ => none
  | fuel + 1, idx =>
    (S₀ idx).map fun s =>
      s.appendBody
        (((assocGet p2c idx).getD []).filterMap (assembleF p2c S₀ fuel))

/-! Ancestry machinery for the correctness proof: `pf` is the parent
function a build trace induces, and `pfChain j` the ancestor chain of
`j` (ending at the root `0`). -/

/-- The ancestor chain with explicit fuel. -/
def chainF (pf : Nat → Nat) : Nat → Nat → List Nat
  | 0, j => [j]
  | fuel + 1, j => if j = 0 then [0] else j :: chainF pf fuel (pf j)

/-- The ancestor chain of `j` (fuel `j` always suffices for a
descending parent function). -/
def pfChain (pf : Nat → Nat) (j : Nat) : List Nat := chainF pf j j

theorem chainF_succ (pf : Nat → Nat) (fuel j : Nat) (hj : ¬(j = 0)) :
    chainF pf (fuel + 1) j = j :: chainF pf fuel (pf j) := by
  simp [chainF, hj]

theorem chainF_stable (pf : Nat → Nat) (hpf : ∀ c, 1 ≤ c → pf c < c) :
    ∀ fuel j, j ≤ fuel → chainF pf fuel j = pfChain pf j := by
  intro fuel
  induction fuel using Nat.strong_induction_on with
  | _ fuel ih =>
    intro j hj
    match j with
    | 0 =>
      cases fuel <;> rfl
    | j + 1 =>
      match fuel, hj with
      | f + 1, hj =>
        have hlt : pf (j + 1) < j + 1 := hpf (j + 1) (by omega)
        rw [chainF_succ pf f (j + 1) (by omega),
          ih f (by omega) (pf (j + 1)) (by omega)]
        show _ = chainF pf (j + 1) (j + 1)
        rw [chainF_succ pf j (j + 1) (by omega),
          ih j (by omega) (pf (j + 1)) (by omega)]

theorem pfChain_zero (pf : Nat → Nat) : pfChain pf 0 = [0] := rfl

theorem pfChain_unfold (pf : Nat → Nat) (hpf : ∀ c, 1 ≤ c → pf c < c)
    (j : Nat) (hj : 1 ≤ j) :
    pfChain pf j = j :: pfChain pf (pf j) := by
  match j, hj with
  | j + 1, _ =>
    have hlt : pf (j + 1) < j + 1 := hpf (j + 1) (by omega)
    rw [pfChain, chainF, if_neg (by omega),
      chainF_stable pf hpf j (pf (j + 1)) (by omega)]

theorem mem_pfChain_self (pf : Nat → Nat) (hpf : ∀ c, 1 ≤ c → pf c < c)
    (j : Nat) : j ∈ pfChain pf j := by
  match j with
  | 0 => rw [pfChain_zero]; exact List.mem_singleton.mpr rfl
  | j + 1 =>
    rw [pfChain_unfold pf hpf (j + 1) (by omega)]
    exact List.mem_cons_self _ _

theorem pfChain_le (pf : Nat → Nat) (hpf : ∀ c, 1 ≤ c → pf c < c) :
    ∀ j a, a ∈ pfChain pf j → a ≤ j := by
  intro j
  induction j using Nat.strong_induction_on with
  | _ j ih =>
    intro a ha
    match j with
    | 0 =>
      rw [pfChain_zero] at ha
      simp at ha
      omega
    | j + 1 =>
      rw [pfChain_unfold pf hpf (j + 1) (by omega)] at ha
      rcases List.mem_cons.mp ha with h | h
      · omega
      · have hlt : pf (j + 1) < j + 1 := hpf (j + 1) (by omega)
        have := ih (pf (j + 1)) (by omega) a h
        omega

theorem pfChain_mem_tail (pf : Nat → Nat) (hpf : ∀ c, 1 ≤ c → pf c < c)
    (a b : Nat) (hb : b ∈ pfChain pf a) (hne : b ≠ a) :
    1 ≤ a ∧ b ∈ pfChain pf (pf a) := by
  match a with
  | 0 =>
    rw [pfChain_zero] at hb
    simp at hb
    exact absurd hb hne
  | a + 1 =>
    rw [pfChain_unfold pf hpf (a + 1) (by omega)] at hb
    rcases List.mem_cons.mp hb with h | h
    · exact absurd h hne
    · exact ⟨by omega, h⟩

theorem pfChain_mem_pf (pf : Nat → Nat) (hpf : ∀ c, 1 ≤ c → pf c < c) :
    ∀ j a, a ∈ pfChain pf j → 1 ≤ a → pf a ∈ pfChain pf j := by
  intro j
  induction j using Nat.strong_induction_on with
  | _ j ih =>
    intro a ha ha1
    match j with
    | 0 =>
      rw [pfChain_zero] at ha
      simp at ha
      omega
    | j + 1 =>
      rw [pfChain_unfold pf hpf (j + 1) (by omega)] at ha ⊢
      rcases List.mem_cons.mp ha with h | h
      · subst h
        exact List.mem_cons_of_mem _ (mem_pfChain_self pf hpf _)
      · have hlt : pf (j + 1) < j + 1 := hpf (j + 1) (by omega)
        exact List.mem_cons_of_mem _ (ih (pf (j + 1)) (by omega) a h ha1)

theorem pfChain_linear (pf : Nat → Nat) (hpf : ∀ c, 1 ≤ c → pf c < c) :
    ∀ j a b, a ∈ pfChain pf j → b ∈ pfChain pf j →
      a ∈ pfChain pf b ∨ b ∈ pfChain pf a := by
  intro j
  induction j using Nat.strong_induction_on with
  | _ j ih =>
    intro a b ha hb
    match j with
    | 0 =>
      rw [pfChain_zero] at ha hb
      simp at ha hb
      subst ha
      subst hb
      exact Or.inl (mem_pfChain_self pf hpf 0)
    | j + 1 =>
      have ha2 := ha
      have hb2 := hb
      rw [pfChain_unfold pf hpf (j + 1) (by omega)] at ha2 hb2
      have hlt : pf (j + 1) < j + 1 := hpf (j + 1) (by omega)
      rcases List.mem_cons.mp ha2 with h1 | h1
      · subst h1
        exact Or.inr hb
      · rcases List.mem_cons.mp hb2 with h2 | h2
        · subst h2
          exact Or.inl ha
        · exact ih (pf (j + 1)) (by omega) a b h1 h2

theorem pfChain_sibling_disjoint (pf : Nat → Nat)
    (hpf : ∀ c, 1 ≤ c → pf c < c) (d d' : Nat) (hd : 1 ≤ d)
    (hd' : 1 ≤ d') (hne : d ≠ d') (hpar : pf d = pf d') (j : Nat)
    (hj : d ∈ pfChain pf j) (hj' : d' ∈ pfChain pf j) : False := by
  rcases pfChain_linear pf hpf j d d' hj hj' with h | h
  · have h2 := (pfChain_mem_tail pf hpf d' d h (by omega)).2
    have h3 := pfChain_le pf hpf (pf d') d h2
    have h4 := hpf d hd
    omega
  · have h2 := (pfChain_mem_tail pf hpf d d' h (by omega)).2
    rw [hpar] at h2
    have h3 := pfChain_le pf hpf (pf d') d' h2
    have h4 := hpf d' hd'
    omega

theorem pfChain_decompose (pf : Nat → Nat)
    (hpf : ∀ c, 1 ≤ c → pf c < c) :
    ∀ j c, c ∈ pfChain pf j → c ≠ j →
      ∃ d, pf d = c ∧ 1 ≤ d ∧ d ∈ pfChain pf j ∧ d ≤ j := by
  intro j
  induction j using Nat.strong_induction_on with
  | _ j ih =>
    intro c hc hne
    match j with
    | 0 =>
      rw [pfChain_zero] at hc
      simp at hc
      exact absurd hc hne
    | j + 1 =>
      have hlt : pf (j + 1) < j + 1 := hpf (j + 1) (by omega)
      rw [pfChain_unfold pf hpf (j + 1) (by omega)] at hc
      rcases List.mem_cons.mp hc with h | h
      · exact absurd h hne
      · by_cases hcp : c = pf (j + 1)
        · refine ⟨j + 1, hcp.symm, by omega, ?_, by omega⟩
          rw [pfChain_unfold pf hpf (j + 1) (by omega)]
          exact List.mem_cons_self _ _
        · obtain ⟨d, hd1, hd2, hd3, hd4⟩ :=
            ih (pf (j + 1)) (by omega) c h hcp
          refine ⟨d, hd1, hd2, ?_, by omega⟩
          rw [pfChain_unfold pf hpf (j + 1) (by omega)]
          exact List.mem_cons_of_mem _ hd3

/-- The root-child ancestor of a node, with fuel. -/
def rootAncF (pf : Nat → Nat) : Nat → Nat → Nat
  | 0, j => j
  | fuel + 1, j => if pf j = 0 then j else rootAncF pf fuel (pf j)

/-- The root-child ancestor of `j`: the last nonzero node on its
ancestor chain. -/
def rootAnc (pf : Nat → Nat) (j : Nat) : Nat := rootAncF pf j j

theorem rootAncF_succ (pf : Nat → Nat) (fuel j : Nat) :
    rootAncF pf (fuel + 1) j =
      if pf j = 0 then j else rootAncF pf fuel (pf j) := rfl

theorem rootAncF_stable (pf : Nat → Nat) (hpf : ∀ c, 1 ≤ c → pf c < c)
    (hpf0 : pf 0 = 0) :
    ∀ fuel j, j ≤ fuel → rootAncF pf fuel j = rootAnc pf j := by
  intro fuel
  induction fuel using Nat.strong_induction_on with
  | _ fuel ih =>
    intro j hj
    match j with
    | 0 =>
      cases fuel with
      | zero => rfl
      | succ f =>
        rw [rootAncF_succ, if_pos hpf0]
        rfl
    | j + 1 =>
      match fuel, hj with
      | f + 1, hj =>
        have hlt : pf (j + 1) < j + 1 := hpf (j + 1) (by omega)
        rw [rootAncF_succ]
        by_cases hz : pf (j + 1) = 0
        · rw [if_pos hz, rootAnc, rootAncF_succ, if_pos hz]
        · rw [if_neg hz, ih f (by omega) (pf (j + 1)) (by omega)]
          show _ = rootAncF pf (j + 1) (j + 1)
          rw [rootAncF_succ, if_neg hz, ih j (by omega) (pf (j + 1)) (by omega)]

theorem rootAnc_unfold (pf : Nat → Nat) (hpf : ∀ c, 1 ≤ c → pf c < c)
    (hpf0 : pf 0 = 0) (j : Nat) (hj : 1 ≤ j) :
    rootAnc pf j = if pf j = 0 then j else rootAnc pf (pf j) := by
  match j, hj with
  | j + 1, _ =>
    have hlt : pf (j + 1) < j + 1 := hpf (j + 1) (by omega)
    rw [rootAnc, rootAncF_succ]
    by_cases hz : pf (j + 1) = 0
    · rw [if_pos hz, if_pos hz]
    · rw [if_neg hz, if_neg hz,
        rootAncF_stable pf hpf hpf0 j (pf (j + 1)) (by omega)]

theorem rootAnc_mem (pf : Nat → Nat) (hpf : ∀ c, 1 ≤ c → pf c < c)
    (hpf0 : pf 0 = 0) :
    ∀ j, 1 ≤ j →
      rootAnc pf j ∈ pfChain pf j ∧ 1 ≤ rootAnc pf j ∧
        pf (rootAnc pf j) = 0 ∧ rootAnc pf j ≤ j := by
  intro j
  induction j using Nat.strong_induction_on with
  | _ j ih =>
    intro hj
    rw [rootAnc_unfold pf hpf hpf0 j hj]
    by_cases hz : pf j = 0
    · rw [if_pos hz]
      exact ⟨mem_pfChain_self pf hpf j, hj, hz, le_refl j⟩
    · rw [if_neg hz]
      have hlt : pf j < j := hpf j hj
      obtain ⟨h1, h2, h3, h4⟩ := ih (pf j) hlt (by omega)
      refine ⟨?_, h2, h3, by omega⟩
      rw [pfChain_unfold pf hpf j hj]
      exact List.mem_cons_of_mem _ h1

/-- Two root children on one ancestor chain coincide. -/
theorem rootChild_unique (pf : Nat → Nat) (hpf : ∀ c, 1 ≤ c → pf c < c)
    (j a b : Nat) (ha : a ∈ pfChain pf j) (hb : b ∈ pfChain pf j)
    (ha1 : 1 ≤ a) (hb1 : 1 ≤ b) (hza : pf a = 0) (hzb : pf b = 0) :
    a = b := by
  by_contra hne
  rcases pfChain_linear pf hpf j a b ha hb with h | h
  · have h2 := (pfChain_mem_tail pf hpf b a h (fun hh => hne hh)).2
    rw [hzb, pfChain_zero] at h2
    simp at h2
    omega
  · have h2 := (pfChain_mem_tail pf hpf a b h (fun hh => hne (hh.symm))).2
    rw [hza, pfChain_zero] at h2
    simp at h2
    omega

theorem rootAnc_eq_iff (pf : Nat → Nat) (hpf : ∀ c, 1 ≤ c → pf c < c)
    (hpf0 : pf 0 = 0) (j m : Nat) (hj : 1 ≤ j) (hm : 1 ≤ m)
    (hzm : pf m = 0) : rootAnc pf j = m ↔ m ∈ pfChain pf j := by
  obtain ⟨h1, h2, h3, _⟩ := rootAnc_mem pf hpf hpf0 j hj
  constructor
  · intro h
    rw [← h]
    exact h1
  · intro h
    exact rootChild_unique pf hpf j (rootAnc pf j) m h1 h h2 hm h3 hzm

/-- Well-formedness of a CSS tree with slot count `n`, slot contents
`S₀`, and parent function `pf`: parents precede their children, the
child-list map is exactly the fibers of `pf` over `1 .. n-1` in index
order, non-root slots are live, the root and out-of-range slots are
empty, and every parent of nestable kind. -/
structure TreeWF (p2c : List (Nat × List Nat)) (pf : Nat → Nat) (n : Nat)
    (S₀ : Nat → Option Stmt) : Prop where
  n_pos : 1 ≤ n
  pf_desc : ∀ c, 1 ≤ c → pf c < c
  pf_zero : pf 0 = 0
  pf_out : ∀ c, n ≤ c → pf c = 0
  children_eq : ∀ q, assocGet p2c q =
    (let cs := (List.range' 1 (n - 1)).filter fun c => pf c == q
     if cs.isEmpty then none else some cs)
  live : ∀ i, 1 ≤ i → i < n → (S₀ i).isSome = true
  root_none : S₀ 0 = none
  high_none : ∀ i, n ≤ i → S₀ i = none
  nestable : ∀ q cs, 1 ≤ q → assocGet p2c q = some cs →
    ∃ s, S₀ q = some s ∧ s.isNestable = true

theorem TreeWF.children_mem {p2c : List (Nat × List Nat)}
    {pf : Nat → Nat} {n : Nat} {S₀ : Nat → Option Stmt}
    (W : TreeWF p2c pf n S₀) (q c : Nat) :
    (c ∈ (assocGet p2c q).getD []) ↔ (1 ≤ c ∧ c < n ∧ pf c = q) := by
  rw [W.children_eq q]
  simp only []
  by_cases h : ((List.range' 1 (n - 1)).filter fun c => pf c == q).isEmpty
  · rw [if_pos h]
    simp only [Option.getD_none, List.not_mem_nil, false_iff]
    intro ⟨h1, h2, h3⟩
    have : c ∈ (List.range' 1 (n - 1)).filter fun c => pf c == q := by
      rw [List.mem_filter, List.mem_range'_1]
      refine ⟨⟨h1, by omega⟩, by simp [h3]⟩
    rw [List.isEmpty_iff] at h
    rw [h] at this
    exact List.not_mem_nil c this
  · rw [if_neg h]
    simp only [Option.getD_some]
    rw [List.mem_filter, List.mem_range'_1]
    constructor
    · intro ⟨⟨h1, h2⟩, h3⟩
      simp at h3
      exact ⟨h1, by omega, h3⟩
    · intro ⟨h1, h2, h3⟩
      exact ⟨⟨h1, by omega⟩, by simp [h3]⟩

theorem TreeWF.children_nodup {p2c : List (Nat × List Nat)}
    {pf : Nat → Nat} {n : Nat} {S₀ : Nat → Option Stmt}
    (_W : TreeWF p2c pf n S₀) (q : Nat) :
    ((assocGet p2c q).getD []).Nodup := by
  rw [_W.children_eq q]
  simp only []
  by_cases h : ((List.range' 1 (n - 1)).filter fun c => pf c == q).isEmpty
  · rw [if_pos h]
    exact List.nodup_nil
  · rw [if_neg h]
    apply List.Nodup.filter
    apply List.nodup_range'
    omega

theorem listFilterMapCongr {α β : Type} (f g : α → Option β) :
    ∀ l : List α, (∀ a ∈ l, f a = g a) → l.filterMap f = l.filterMap g := by
  intro l h
  induction l with
  | nil => rfl
  | cons x xs ih =>
    rw [List.filterMap_cons, List.filterMap_cons, h x (by simp),
      ih fun a ha => h a (by simp [ha])]

theorem assembleF_stable {p2c : List (Nat × List Nat)} {pf : Nat → Nat}
    {n : Nat} {S₀ : Nat → Option Stmt} (W : TreeWF p2c pf n S₀) :
    ∀ fuel fuel' idx, 1 ≤ idx → n ≤ fuel + idx → n ≤ fuel' + idx →
      assembleF p2c S₀ fuel idx = assembleF p2c S₀ fuel' idx := by
  intro fuel
  induction fuel using Nat.strong_induction_on with
  | _ fuel ih =>
    intro fuel' idx h1 h2 h3
    by_cases hn : idx < n
    · cases fuel with
      | zero => omega
      | succ f =>
        cases fuel' with
        | zero => omega
        | succ f2 =>
          simp only [assembleF]
          have hlist : ((assocGet p2c idx).getD []).filterMap
                (assembleF p2c S₀ f) =
              ((assocGet p2c idx).getD []).filterMap (assembleF p2c S₀ f2) := by
            apply listFilterMapCongr
            intro d hd
            obtain ⟨hd1, hd2, hd3⟩ := (W.children_mem idx d).mp hd
            have hgt : idx < d := by
              have := W.pf_desc d hd1
              omega
            exact ih f (by omega) f2 d hd1 (by omega) (by omega)
          rw [hlist]
    · have hs : S₀ idx = none := W.high_none idx (by omega)
      cases fuel <;> cases fuel' <;> simp [assembleF, hs]

/-- A strict descendant below `n` always descends through a child below
`n`. -/
theorem subtree_step {p2c : List (Nat × List Nat)} {pf : Nat → Nat}
    {n : Nat} {S₀ : Nat → Option Stmt} (W : TreeWF p2c pf n S₀)
    (c j : Nat) (hc1 : 1 ≤ c) (hcn : c < n) (hmem : c ∈ pfChain pf j)
    (hne : c ≠ j) :
    ∃ d, pf d = c ∧ 1 ≤ d ∧ d < n ∧ d ∈ pfChain pf j := by
  obtain ⟨d, hd1, hd2, hd3, _⟩ :=
    pfChain_decompose pf W.pf_desc j c hmem hne
  refine ⟨d, hd1, hd2, ?_, hd3⟩
  by_contra hdn
  have := W.pf_out d (by omega)
  omega


/-- Unfolding equation of `applyGo` on an empty child list. -/
theorem applyGo_nil (p2c : List (Nat × List Nat)) (fuel p : Nat)
    (S : Nat → Option Stmt) : applyGo p2c fuel p [] S = some S := by
  cases fuel <;> rfl

/-- Evaluation lemma for `addChildToParentF` on a live nestable parent. -/
theorem addChildToParentF_eval (S₁ : Nat → Option Stmt) (ac sp : Stmt)
    (p c : Nat) (hpc : ¬(p = c)) (hS₁p : S₁ p = some sp)
    (hnest : sp.isNestable = true) :
    addChildToParentF (fun j => if j = c then none else S₁ j) ac p =
      some (fun j => if j = p then some (sp.appendBody [ac])
        else if j = c then none else S₁ j) := by
  show (match (if p = c then none else S₁ p) with
    | none => none
    | some parent =>
      (parent.pushBody ac).map fun pp =>
        fun j => if j = p then some pp
          else if j = c then none else S₁ j) = _
  rw [if_neg hpc, hS₁p]
  show (sp.pushBody ac).map _ = _
  rw [Stmt.pushBody, if_pos hnest]
  rfl

/-- One step of `applyGo` on a childless head child. -/
theorem applyGo_cons_eval_none (p2c : List (Nat × List Nat)) (f p c : Nat)
    (rest : List Nat) (S : Nat → Option Stmt) (ac : Stmt)
    (S₃ : Nat → Option Stmt) (hgc : assocGet p2c c = none)
    (hS₁c : S c = some ac)
    (hadd : addChildToParentF (fun j => if j = c then none else S j) ac p =
      some S₃) :
    applyGo p2c (f + 1) p (c :: rest) S = applyGo p2c f p rest S₃ := by
  simp only [applyGo, hgc, hS₁c, hadd]

/-- One step of `applyGo` on a head child whose own subtree was already
compacted by the recursive call. -/
theorem applyGo_cons_eval_some (p2c : List (Nat × List Nat)) (f p c : Nat)
    (rest gcs : List Nat) (S S₁ : Nat → Option Stmt) (ac : Stmt)
    (S₃ : Nat → Option Stmt) (hgc : assocGet p2c c = some gcs)
    (hdesc : applyGo p2c f c gcs S = some S₁) (hS₁c : S₁ c = some ac)
    (hadd : addChildToParentF (fun j => if j = c then none else S₁ j) ac p =
      some S₃) :
    applyGo p2c (f + 1) p (c :: rest) S = applyGo p2c f p rest S₃ := by
  simp only [applyGo, hgc, hdesc, hS₁c, hadd]

/-- A child list recorded in the map has fewer entries than there are
slots. -/
theorem children_length {p2c : List (Nat × List Nat)} {pf : Nat → Nat}
    {n : Nat} {S₀ : Nat → Option Stmt} (W : TreeWF p2c pf n S₀)
    (q : Nat) (cs : List Nat) (h : assocGet p2c q = some cs) :
    cs.length + 1 ≤ n := by
  rw [W.children_eq q] at h
  simp only [] at h
  by_cases he : ((List.range' 1 (n - 1)).filter fun c => pf c == q).isEmpty
  · rw [if_pos he] at h
    exact absurd h (by simp)
  · rw [if_neg he] at h
    have hcs : cs = (List.range' 1 (n - 1)).filter fun c => pf c == q :=
      (Option.some.inj h).symm
    have h1 : cs.length ≤ (List.range' 1 (n - 1)).length := by
      rw [hcs]
      exact List.length_filter_le _ _
    rw [List.length_range'] at h1
    have := W.n_pos
    omega

/-- The canonical-fuel unfolding of `assembleF`: with fuel `n` the
assembled value of any node is its slot with the assembled children (at
the same fuel) appended. -/
theorem assembleF_canon {p2c : List (Nat × List Nat)} {pf : Nat → Nat}
    {n : Nat} {S₀ : Nat → Option Stmt} (W : TreeWF p2c pf n S₀)
    (c : Nat) (hc1 : 1 ≤ c) :
    assembleF p2c S₀ n c =
      (S₀ c).map fun s =>
        s.appendBody
          (((assocGet p2c c).getD []).filterMap (assembleF p2c S₀ n)) := by
  obtain ⟨m, hm⟩ : ∃ m, n = m + 1 := ⟨n - 1, by have := W.n_pos; omega⟩
  have hstep : assembleF p2c S₀ (m + 1) c =
      (S₀ c).map fun s =>
        s.appendBody
          (((assocGet p2c c).getD []).filterMap (assembleF p2c S₀ m)) := rfl
  have hlist : ((assocGet p2c c).getD []).filterMap (assembleF p2c S₀ m) =
      ((assocGet p2c c).getD []).filterMap (assembleF p2c S₀ (m + 1)) := by
    apply listFilterMapCongr
    intro d hd
    obtain ⟨hd1, hd2, hd3⟩ := (W.children_mem c d).mp hd
    exact assembleF_stable W m (m + 1) d hd1 (by omega) (by omega)
  rw [hm, hstep]
  simp only [hlist]

/-- Correctness of the child-application loop: starting from a state that
is still original on the subtrees of the (pairwise distinct) children to
process, the loop assembles those subtrees into the parent slot in list
order and tombstones every node it consumed, touching nothing else. -/
theorem applyGo_spec {p2c : List (Nat × List Nat)} {pf : Nat → Nat}
    {n : Nat} {S₀ : Nat → Option Stmt} (W : TreeWF p2c pf n S₀) :
    ∀ (fuel p : Nat) (cs : List Nat) (S : Nat → Option Stmt) (sp : Stmt),
      1 ≤ p → p < n → cs.length + n * (n - p) ≤ fuel →
      (∀ c ∈ cs, 1 ≤ c ∧ c < n ∧ pf c = p) → cs.Nodup →
      (∀ j, (∃ c ∈ cs, c ∈ pfChain pf j) → S j = S₀ j) →
      S p = some sp → sp.isNestable = true →
      applyGo p2c fuel p cs S =
        some fun j =>
          if j = p then
            some (sp.appendBody (cs.filterMap (assembleF p2c S₀ n)))
          else if ∃ c ∈ cs, c ∈ pfChain pf j then none
          else S j := by
  intro fuel
  induction fuel using Nat.strong_induction_on with
  | _ fuel ihF =>
    intro p cs S sp h1 h2 hfuel hcs hnd hagree hSp hnest
    cases cs with
    | nil =>
      rw [applyGo_nil]
      refine congrArg some (funext fun j => ?_)
      by_cases hj : j = p
      · subst hj
        rw [if_pos rfl,
          show ([] : List Nat).filterMap (assembleF p2c S₀ n) = [] from rfl,
          appendBody_nil]
        exact hSp
      · rw [if_neg hj, if_neg (by simp)]
    | cons c rest =>
      have hf1 : 1 ≤ fuel := by
        rw [List.length_cons] at hfuel
        omega
      obtain ⟨f, rfl⟩ : ∃ f, fuel = f + 1 := ⟨fuel - 1, by omega⟩
      obtain ⟨hc1, hcn, hcp⟩ := hcs c (List.mem_cons_self _ _)
      have hpc : p < c := by
        have := W.pf_desc c hc1
        rw [hcp] at this
        omega
      have hScS₀ : S c = S₀ c :=
        hagree c ⟨c, List.mem_cons_self _ _, mem_pfChain_self pf W.pf_desc c⟩
      have hlive := W.live c hc1 hcn
      obtain ⟨sc, hsc⟩ : ∃ sc, S₀ c = some sc := by
        cases hx : S₀ c with
        | none =>
          rw [hx] at hlive
          simp at hlive
        | some sc => exact ⟨sc, rfl⟩
      have hsSc : S c = some sc := hScS₀.trans hsc
      have hcnotrest : c ∉ rest := (List.nodup_cons.mp hnd).1
      have hndrest : rest.Nodup := (List.nodup_cons.mp hnd).2
      have hcsrest : ∀ x ∈ rest, 1 ≤ x ∧ x < n ∧ pf x = p :=
        fun x hx => hcs x (List.mem_cons_of_mem _ hx)
      have hfuelRest : rest.length + n * (n - p) ≤ f := by
        rw [List.length_cons] at hfuel
        omega
      have hrestState : ∀ (S₃ : Nat → Option Stmt),
          (∀ j, j ≠ p → j ≠ c →
            ¬(∃ d ∈ pfChain pf j, pf d = c ∧ 1 ≤ d ∧ d < n) →
            S₃ j = S j) →
          ∀ j, (∃ x ∈ rest, x ∈ pfChain pf j) → S₃ j = S₀ j := by
        intro S₃ hS₃ j hex
        obtain ⟨x, hxrest, hxchain⟩ := hex
        obtain ⟨hx1, hxn, hxp⟩ := hcsrest x hxrest
        have hjp : j ≠ p := by
          intro hEq
          subst hEq
          have := pfChain_le pf W.pf_desc j x hxchain
          have := W.pf_desc x hx1
          omega
        have hjc : j ≠ c := by
          intro hEq
          subst hEq
          exact pfChain_sibling_disjoint pf W.pf_desc x j hx1 hc1
            (fun hEq2 => hcnotrest (hEq2 ▸ hxrest)) (hxp.trans hcp.symm) j
            hxchain (mem_pfChain_self pf W.pf_desc j)
        have hjd : ¬(∃ d ∈ pfChain pf j, pf d = c ∧ 1 ≤ d ∧ d < n) := by
          intro ⟨d, hd4, hd1, hd2, hd3⟩
          have hcchain : c ∈ pfChain pf j := by
            have := pfChain_mem_pf pf W.pf_desc j d hd4 hd2
            rw [hd1] at this
            exact this
          exact pfChain_sibling_disjoint pf W.pf_desc x c hx1 hc1
            (fun hEq2 => hcnotrest (hEq2 ▸ hxrest)) (hxp.trans hcp.symm) j
            hxchain hcchain
        rw [hS₃ j hjp hjc hjd]
        exact hagree j ⟨x, List.mem_cons_of_mem _ hxrest, hxchain⟩
      have hheadCond : ∀ j, j ≠ c →
          ((∃ x ∈ c :: rest, x ∈ pfChain pf j) ↔
            ((∃ d ∈ pfChain pf j, pf d = c ∧ 1 ≤ d ∧ d < n) ∨
              ∃ x ∈ rest, x ∈ pfChain pf j)) := by
        intro j hjc
        constructor
        · intro ⟨x, hxmem, hxchain⟩
          rcases List.mem_cons.mp hxmem with hEq | hxrest
          · subst hEq
            obtain ⟨d, hd1, hd2, hd3, hd4⟩ := subtree_step W x j hc1 hcn
              hxchain (fun hEq => hjc hEq.symm)
            exact Or.inl ⟨d, hd4, hd1, hd2, hd3⟩
          · exact Or.inr ⟨x, hxrest, hxchain⟩
        · intro h
          rcases h with ⟨d, hd4, hd1, hd2, hd3⟩ | ⟨x, hxrest, hxchain⟩
          · refine ⟨c, List.mem_cons_self _ _, ?_⟩
            have := pfChain_mem_pf pf W.pf_desc j d hd4 hd2
            rw [hd1] at this
            exact this
          · exact ⟨x, List.mem_cons_of_mem _ hxrest, hxchain⟩
      have key : ∀ (S₃ : Nat → Option Stmt) (ac : Stmt),
          (∀ j, S₃ j =
            if j = p then some (sp.appendBody [ac])
            else if j = c then none
            else if ∃ d ∈ pfChain pf j, pf d = c ∧ 1 ≤ d ∧ d < n then none
            else S j) →
          assembleF p2c S₀ n c = some ac →
          applyGo p2c f p rest S₃ =
            some fun j =>
              if j = p then
                some (sp.appendBody
                  ((c :: rest).filterMap (assembleF p2c S₀ n)))
              else if ∃ x ∈ c :: rest, x ∈ pfChain pf j then none
              else S j := by
        intro S₃ ac hS₃ hacEq
        have hS₃p : S₃ p = some (sp.appendBody [ac]) := by
          rw [hS₃ p, if_pos rfl]
        have hagree₃ : ∀ j, (∃ x ∈ rest, x ∈ pfChain pf j) → S₃ j = S₀ j := by
          apply hrestState S₃
          intro j hjp hjc hjd
          rw [hS₃ j, if_neg hjp, if_neg hjc, if_neg hjd]
        rw [ihF f (by omega) p rest S₃ (sp.appendBody [ac]) h1 h2 hfuelRest
          hcsrest hndrest hagree₃ hS₃p
          (by rw [isNestable_appendBody]; exact hnest)]
        refine congrArg some (funext fun j => ?_)
        by_cases hjp : j = p
        · subst hjp
          have hconsMap : (c :: rest).filterMap (assembleF p2c S₀ n) =
              ac :: rest.filterMap (assembleF p2c S₀ n) := by
            rw [List.filterMap_cons, hacEq]
          rw [if_pos rfl, if_pos rfl, hconsMap, appendBody_append]
          rfl
        · rw [if_neg hjp, if_neg hjp]
          by_cases hjc : j = c
          · rw [if_pos (show ∃ x ∈ c :: rest, x ∈ pfChain pf j from
              ⟨c, List.mem_cons_self _ _,
                by rw [hjc]; exact mem_pfChain_self pf W.pf_desc c⟩)]
            by_cases hrc : ∃ x ∈ rest, x ∈ pfChain pf j
            · rw [if_pos hrc]
            · rw [if_neg hrc, hS₃ j, if_neg hjp, if_pos hjc]
          · have hiff := hheadCond j hjc
            by_cases hrest : ∃ x ∈ rest, x ∈ pfChain pf j
            · rw [if_pos hrest, if_pos (hiff.mpr (Or.inr hrest))]
            · rw [if_neg hrest, hS₃ j, if_neg hjp, if_neg hjc]
              by_cases hD : ∃ d ∈ pfChain pf j, pf d = c ∧ 1 ≤ d ∧ d < n
              · rw [if_pos hD, if_pos (hiff.mpr (Or.inl hD))]
              · rw [if_neg hD, if_neg (fun hcon =>
                  (hiff.mp hcon).elim hD hrest)]
      cases hgc : assocGet p2c c with
      | none =>
        have hnochild : ∀ d, ¬(pf d = c ∧ 1 ≤ d ∧ d < n) := by
          intro d ⟨hd1, hd2, hd3⟩
          have := (W.children_mem c d).mpr ⟨hd2, hd3, hd1⟩
          rw [hgc] at this
          simp at this
        have hacEq : assembleF p2c S₀ n c = some sc := by
          rw [assembleF_canon W c hc1, hsc, hgc]
          simp [appendBody_nil]
        have hstep := applyGo_cons_eval_none p2c f p c rest S sc
          (fun j => if j = p then some (sp.appendBody [sc])
            else if j = c then none else S j) hgc hsSc
          (addChildToParentF_eval S sc sp p c (by omega) hSp hnest)
        rw [hstep]
        refine key _ sc (fun j => ?_) hacEq
        by_cases hjp : j = p
        · simp [hjp]
        · by_cases hjc : j = c
          · simp [hjp, hjc]
          · have hD : ¬(∃ d ∈ pfChain pf j, pf d = c ∧ 1 ≤ d ∧ d < n) := by
              intro ⟨d, _, hd1, hd2, hd3⟩
              exact hnochild d ⟨hd1, hd2, hd3⟩
            simp [hjp, hjc, hD]
      | some gcs =>
        have hglen : gcs.length + 1 ≤ n := children_length W c gcs hgc
        have hfuelDesc : gcs.length + n * (n - c) ≤ f := by
          have e2 : n * (n - p) = n * (n - c) + n * (c - p) := by
            rw [show n - p = (n - c) + (c - p) from by omega, Nat.mul_add]
          have e3 : n ≤ n * (c - p) := by
            calc n = n * 1 := (Nat.mul_one n).symm
              _ ≤ n * (c - p) := Nat.mul_le_mul_left n (by omega)
          rw [List.length_cons] at hfuel
          omega
        have hgmem : ∀ d ∈ gcs, 1 ≤ d ∧ d < n ∧ pf d = c := by
          intro d hd
          exact (W.children_mem c d).mp (by rw [hgc]; exact hd)
        have hgnd : gcs.Nodup := by
          have hx := W.children_nodup c
          rw [hgc] at hx
          exact hx
        have hagreeG : ∀ j, (∃ d ∈ gcs, d ∈ pfChain pf j) → S j = S₀ j := by
          intro j ⟨d, hdg, hdchain⟩
          obtain ⟨hd1, hdn, hdc⟩ := hgmem d hdg
          have hcchain : c ∈ pfChain pf j := by
            have := pfChain_mem_pf pf W.pf_desc j d hdchain hd1
            rw [hdc] at this
            exact this
          exact hagree j ⟨c, List.mem_cons_self _ _, hcchain⟩
        have hscNest : sc.isNestable = true := by
          obtain ⟨s, hs1, hs2⟩ := W.nestable c gcs hc1 hgc
          rw [hsc] at hs1
          rw [Option.some.inj hs1]
          exact hs2
        have hdesc := ihF f (by omega) c gcs S sc hc1 hcn hfuelDesc hgmem
          hgnd hagreeG hsSc hscNest
        have hDiff : ∀ j, (∃ d ∈ gcs, d ∈ pfChain pf j) ↔
            (∃ d ∈ pfChain pf j, pf d = c ∧ 1 ≤ d ∧ d < n) := by
          intro j
          constructor
          · intro ⟨d, hdg, hdchain⟩
            obtain ⟨hd1, hdn, hdc⟩ := hgmem d hdg
            exact ⟨d, hdchain, hdc, hd1, hdn⟩
          · intro ⟨d, hdchain, hdc, hd1, hdn⟩
            refine ⟨d, ?_, hdchain⟩
            have hx := (W.children_mem c d).mpr ⟨hd1, hdn, hdc⟩
            rw [hgc] at hx
            exact hx
        have hnotp : ¬(∃ d ∈ gcs, d ∈ pfChain pf p) := by
          intro ⟨d, hdg, hdchain⟩
          obtain ⟨hd1, hdn, hdc⟩ := hgmem d hdg
          have hle := pfChain_le pf W.pf_desc p d hdchain
          have := W.pf_desc d hd1
          omega
        have hS₁c : (fun j => if j = c
              then some (sc.appendBody (gcs.filterMap (assembleF p2c S₀ n)))
              else if ∃ d ∈ gcs, d ∈ pfChain pf j then none else S j) c =
            some (sc.appendBody (gcs.filterMap (assembleF p2c S₀ n))) := by
          simp
        have hS₁p : (fun j => if j = c
              then some (sc.appendBody (gcs.filterMap (assembleF p2c S₀ n)))
              else if ∃ d ∈ gcs, d ∈ pfChain pf j then none else S j) p =
            some sp := by
          simp only [if_neg (show ¬(p = c) from by omega), if_neg hnotp]
          exact hSp
        have hacEq : assembleF p2c S₀ n c =
            some (sc.appendBody (gcs.filterMap (assembleF p2c S₀ n))) := by
          rw [assembleF_canon W c hc1, hsc, hgc]
          rfl
        have hstep := applyGo_cons_eval_some p2c f p c rest gcs S _
          (sc.appendBody (gcs.filterMap (assembleF p2c S₀ n))) _ hgc hdesc
          hS₁c (addChildToParentF_eval _
            (sc.appendBody (gcs.filterMap (assembleF p2c S₀ n))) sp p c
            (by omega) hS₁p hnest)
        rw [hstep]
        refine key _ (sc.appendBody (gcs.filterMap (assembleF p2c S₀ n)))
          (fun j => ?_) hacEq
        by_cases hjp : j = p
        · simp [hjp]
        · by_cases hjc : j = c
          · simp [hjp, hjc]
          · by_cases hD : ∃ d ∈ pfChain pf j, pf d = c ∧ 1 ≤ d ∧ d < n
            · have hg := (hDiff j).mpr hD
              simp [hjp, hjc, hD, hg]
            · have hg : ¬(∃ d ∈ gcs, d ∈ pfChain pf j) :=
                fun h => hD ((hDiff j).mp h)
              simp [hjp, hjc, hD, hg]

theorem pfChain_trans (pf : Nat → Nat) (hpf : ∀ c, 1 ≤ c → pf c < c) :
    ∀ j a b, a ∈ pfChain pf j → b ∈ pfChain pf a → b ∈ pfChain pf j := by
  intro j
  induction j using Nat.strong_induction_on with
  | _ j ih =>
    intro a b ha hb
    match j with
    | 0 =>
      rw [pfChain_zero] at ha ⊢
      simp at ha
      subst ha
      rw [pfChain_zero] at hb
      exact hb
    | j + 1 =>
      have hlt : pf (j + 1) < j + 1 := hpf (j + 1) (by omega)
      rw [pfChain_unfold pf hpf (j + 1) (by omega)] at ha ⊢
      rcases List.mem_cons.mp ha with h | h
      · subst h
        rw [pfChain_unfold pf hpf (j + 1) (by omega)] at hb
        exact hb
      · exact List.mem_cons_of_mem _ (ih (pf (j + 1)) (by omega) a b h hb)

/-- The root-child ancestor is inherited along ancestor chains. -/
theorem rootAnc_of_mem (pf : Nat → Nat) (hpf : ∀ c, 1 ≤ c → pf c < c)
    (hpf0 : pf 0 = 0) (j a : Nat) (ha1 : 1 ≤ a) (ha : a ∈ pfChain pf j) :
    rootAnc pf j = rootAnc pf a := by
  have hj1 : 1 ≤ j := by
    by_contra h
    have hj0 : j = 0 := by omega
    subst hj0
    rw [pfChain_zero] at ha
    simp at ha
    omega
  obtain ⟨hm1, hm2, hm3, _⟩ := rootAnc_mem pf hpf hpf0 a ha1
  have hmem : rootAnc pf a ∈ pfChain pf j := pfChain_trans pf hpf j a _ ha hm1
  exact (rootAnc_eq_iff pf hpf hpf0 j (rootAnc pf a) hj1 hm2 hm3).mpr hmem

theorem rootAnc_self_of_pf_zero (pf : Nat → Nat)
    (hpf : ∀ c, 1 ≤ c → pf c < c) (hpf0 : pf 0 = 0) (j : Nat)
    (hj : 1 ≤ j) (hz : pf j = 0) : rootAnc pf j = j := by
  rw [rootAnc_unfold pf hpf hpf0 j hj, if_pos hz]

theorem rootAnc_le_pf (pf : Nat → Nat) (hpf : ∀ c, 1 ≤ c → pf c < c)
    (hpf0 : pf 0 = 0) (j : Nat) (hj : 1 ≤ j) (hz : ¬(pf j = 0)) :
    rootAnc pf j ≤ pf j := by
  rw [rootAnc_unfold pf hpf hpf0 j hj, if_neg hz]
  exact (rootAnc_mem pf hpf hpf0 (pf j) (by omega)).2.2.2

/-- A slot at index `n - 1` or beyond has no child list. -/
theorem assocGet_high_none {p2c : List (Nat × List Nat)} {pf : Nat → Nat}
    {n : Nat} {S₀ : Nat → Option Stmt} (W : TreeWF p2c pf n S₀)
    (j : Nat) (hj : n - 1 ≤ j) : assocGet p2c j = none := by
  have hfib : (List.range' 1 (n - 1)).filter (fun c => pf c == j) = [] := by
    rw [List.filter_eq_nil]
    intro d hd
    rw [List.mem_range'_1] at hd
    have := W.pf_desc d (by omega)
    simp only [beq_iff_eq]
    omega
  rw [W.children_eq j]
  simp [hfib]

/-- Assembly of a childless node is just its slot. -/
theorem assembleF_childless {p2c : List (Nat × List Nat)} {pf : Nat → Nat}
    {n : Nat} {S₀ : Nat → Option Stmt} (W : TreeWF p2c pf n S₀)
    (c : Nat) (hc1 : 1 ≤ c) (hgc : assocGet p2c c = none) :
    assembleF p2c S₀ n c = S₀ c := by
  rw [assembleF_canon W c hc1, hgc]
  cases h : S₀ c <;> simp [appendBody_nil]

/-- The slot state after the compaction loop has processed indices
`1 .. m`: every subtree whose root-child ancestor has been reached is
assembled into that root child with its interior tombstoned; everything
else is untouched. -/
def stateAt (p2c : List (Nat × List Nat)) (pf : Nat → Nat) (n : Nat)
    (S₀ : Nat → Option Stmt) (m : Nat) : Nat → Option Stmt := fun j =>
  if 1 ≤ j ∧ j < n ∧ rootAnc pf j ≤ m then
    if pf j = 0 then assembleF p2c S₀ n j else none
  else S₀ j

theorem stateAt_zero {p2c : List (Nat × List Nat)} {pf : Nat → Nat}
    {n : Nat} {S₀ : Nat → Option Stmt} (W : TreeWF p2c pf n S₀) (j : Nat) :
    stateAt p2c pf n S₀ 0 j = S₀ j := by
  have hno : ¬(1 ≤ j ∧ j < n ∧ rootAnc pf j ≤ 0) := by
    intro ⟨h1, h2, h3⟩
    have := (rootAnc_mem pf W.pf_desc W.pf_zero j h1).2.1
    omega
  simp only [stateAt, if_neg hno]

theorem listFilterMapSplit {α β : Type} (l : List α) (S A : α → Option β)
    (P : α → Bool) (h : ∀ j ∈ l, S j = if P j then A j else none) :
    l.filterMap S = (l.filter P).filterMap A := by
  induction l with
  | nil => rfl
  | cons x xs ih =>
    have hx := h x (by simp)
    have hxs := ih fun j hj => h j (by simp [hj])
    rw [List.filterMap_cons, List.filter_cons]
    cases hP : P x with
    | true =>
      rw [hP] at hx
      rw [hx]
      simp only [if_true]
      rw [List.filterMap_cons]
      cases hA : A x with
      | none => rw [hxs]
      | some b => rw [hxs]
    | false =>
      rw [hP] at hx
      simp at hx
      rw [hx, hxs]
      simp

/-- Stability of the invariant state when no root-child ancestor equals
`m + 1`. -/
theorem stateAt_stable {p2c : List (Nat × List Nat)} {pf : Nat → Nat}
    {n : Nat} {S₀ : Nat → Option Stmt} (_W : TreeWF p2c pf n S₀)
    (m j : Nat) (hne : 1 ≤ j → j < n → rootAnc pf j ≠ m + 1) :
    stateAt p2c pf n S₀ m j = stateAt p2c pf n S₀ (m + 1) j := by
  simp only [stateAt]
  by_cases hj : 1 ≤ j ∧ j < n
  · have hne2 := hne hj.1 hj.2
    by_cases hcnd : rootAnc pf j ≤ m
    · have hc1 : 1 ≤ j ∧ j < n ∧ rootAnc pf j ≤ m := ⟨hj.1, hj.2, hcnd⟩
      have hc2 : 1 ≤ j ∧ j < n ∧ rootAnc pf j ≤ m + 1 :=
        ⟨hj.1, hj.2, by omega⟩
      rw [if_pos hc1, if_pos hc2]
    · rw [if_neg (by intro ⟨a1, a2, a3⟩; exact hcnd a3),
        if_neg (by intro ⟨a1, a2, a3⟩; omega)]
  · rw [if_neg (by intro h; exact hj ⟨h.1, h.2.1⟩),
      if_neg (by intro h; exact hj ⟨h.1, h.2.1⟩)]

/-- One iteration of the `finish` loop advances the invariant state from
`m` to `m + 1`. -/
theorem finish_step {p2c : List (Nat × List Nat)} {pf : Nat → Nat}
    {n : Nat} {S₀ : Nat → Option Stmt} (W : TreeWF p2c pf n S₀)
    (m : Nat) (hmn : m + 1 < n) (S : Nat → Option Stmt)
    (hS : ∀ j, S j = stateAt p2c pf n S₀ m j) :
    ∃ S₁, (∀ j, S₁ j = stateAt p2c pf n S₀ (m + 1) j) ∧
      ∀ rest, finishLoop p2c (n * n + n) ((m + 1) :: rest) S =
        finishLoop p2c (n * n + n) rest S₁ := by
  by_cases hz : pf (m + 1) = 0
  case neg =>
    have hra : rootAnc pf (m + 1) ≤ m := by
      have h1 := rootAnc_le_pf pf W.pf_desc W.pf_zero (m + 1) (by omega) hz
      have h2 := W.pf_desc (m + 1) (by omega)
      omega
    have hSm1 : S (m + 1) = none := by
      rw [hS (m + 1)]
      simp only [stateAt]
      rw [if_pos ⟨by omega, by omega, hra⟩, if_neg hz]
    have hcond : ((S (m + 1)).isNone ||
        !CssTree.hasChildrenMap p2c (m + 1)) = true := by
      rw [hSm1]
      rfl
    have hno : ∀ j, 1 ≤ j → j < n → rootAnc pf j ≠ m + 1 := by
      intro j hj _ heq
      have hx := (rootAnc_mem pf W.pf_desc W.pf_zero j hj).2.2.1
      rw [heq] at hx
      exact hz hx
    refine ⟨S, fun j => ?_, fun rest => ?_⟩
    · rw [hS j]
      exact stateAt_stable W m j (hno j)
    · simp only [finishLoop]
      rw [if_pos hcond]
  case pos =>
    have hraEq : rootAnc pf (m + 1) = m + 1 :=
      rootAnc_self_of_pf_zero pf W.pf_desc W.pf_zero (m + 1) (by omega) hz
    have hlive := W.live (m + 1) (by omega) (by omega)
    obtain ⟨s, hs⟩ : ∃ s, S₀ (m + 1) = some s := by
      cases hx : S₀ (m + 1) with
      | none => rw [hx] at hlive; simp at hlive
      | some s => exact ⟨s, rfl⟩
    have hSm1 : S (m + 1) = some s := by
      rw [hS (m + 1)]
      simp only [stateAt]
      rw [if_neg (by intro ⟨a1, a2, a3⟩; rw [hraEq] at a3; omega), hs]
    cases hgc : assocGet p2c (m + 1) with
    | none =>
      have hcond : ((S (m + 1)).isNone ||
          !CssTree.hasChildrenMap p2c (m + 1)) = true := by
        rw [hSm1]
        simp [CssTree.hasChildrenMap, hgc]
      have hnochild : ∀ d, ¬(pf d = m + 1 ∧ 1 ≤ d ∧ d < n) := by
        intro d ⟨hd1, hd2, hd3⟩
        have hx := (W.children_mem (m + 1) d).mpr ⟨hd2, hd3, hd1⟩
        rw [hgc] at hx
        simp at hx
      have honly : ∀ j, 1 ≤ j → j < n → rootAnc pf j = m + 1 →
          j = m + 1 := by
        intro j hj1 hjn heq
        by_contra hne
        have hmem := (rootAnc_mem pf W.pf_desc W.pf_zero j hj1).1
        rw [heq] at hmem
        obtain ⟨d, hd1, hd2, hd3, _⟩ := subtree_step W (m + 1) j (by omega)
          (by omega) hmem (fun hEq => hne hEq.symm)
        exact hnochild d ⟨hd1, hd2, hd3⟩
      refine ⟨S, fun j => ?_, fun rest => ?_⟩
      · rw [hS j]
        by_cases heq : 1 ≤ j ∧ j < n ∧ rootAnc pf j = m + 1
        · obtain ⟨hj1, hjn, heq⟩ := heq
          have hjm : j = m + 1 := honly j hj1 hjn heq
          subst hjm
          simp only [stateAt]
          have hc2 : 1 ≤ m + 1 ∧ m + 1 < n ∧ rootAnc pf (m + 1) ≤ m + 1 :=
            ⟨by omega, by omega, hraEq.le⟩
          rw [if_neg (by intro ⟨a1, a2, a3⟩; rw [hraEq] at a3; omega),
            if_pos hc2, if_pos hz,
            assembleF_childless W (m + 1) (by omega) hgc]
        · exact stateAt_stable W m j
            (fun h1 h2 hr => heq ⟨h1, h2, hr⟩)
      · simp only [finishLoop]
        rw [if_pos hcond]
    | some children =>
      have hcond : ((S (m + 1)).isNone ||
          !CssTree.hasChildrenMap p2c (m + 1)) = false := by
        rw [hSm1]
        simp [CssTree.hasChildrenMap, hgc]
      have hglen := children_length W (m + 1) children hgc
      have hfuelA : children.length + n * (n - (m + 1)) ≤ n * n + n := by
        have h1 : n * (n - (m + 1)) ≤ n * n :=
          Nat.mul_le_mul_left n (by omega)
        omega
      have hgmem : ∀ d ∈ children, 1 ≤ d ∧ d < n ∧ pf d = m + 1 := by
        intro d hd
        exact (W.children_mem (m + 1) d).mp (by rw [hgc]; exact hd)
      have hgnd : children.Nodup := by
        have hx := W.children_nodup (m + 1)
        rw [hgc] at hx
        exact hx
      have hsub : ∀ j, (∃ c ∈ children, c ∈ pfChain pf j) →
          1 ≤ j ∧ rootAnc pf j = m + 1 := by
        intro j ⟨c, hcg, hcchain⟩
        obtain ⟨hc1, hcn2, hcp⟩ := hgmem c hcg
        have hj1 : 1 ≤ j := by
          have h1 := pfChain_le pf W.pf_desc j c hcchain
          omega
        have hmchain : m + 1 ∈ pfChain pf j := by
          have hx := pfChain_mem_pf pf W.pf_desc j c hcchain hc1
          rw [hcp] at hx
          exact hx
        refine ⟨hj1, ?_⟩
        rw [rootAnc_of_mem pf W.pf_desc W.pf_zero j (m + 1) (by omega)
          hmchain, hraEq]
      have hagreeA : ∀ j, (∃ c ∈ children, c ∈ pfChain pf j) →
          S j = S₀ j := by
        intro j hex
        obtain ⟨hj1, hrj⟩ := hsub j hex
        rw [hS j]
        simp only [stateAt]
        rw [if_neg (by intro ⟨a1, a2, a3⟩; omega)]
      have hnest : s.isNestable = true := by
        obtain ⟨s2, hs1, hs2⟩ := W.nestable (m + 1) children (by omega) hgc
        rw [hs] at hs1
        rw [Option.some.inj hs1]
        exact hs2
      have hspec := applyGo_spec W (n * n + n) (m + 1) children S s
        (by omega) (by omega) hfuelA hgmem hgnd hagreeA hSm1 hnest
      have hasm : assembleF p2c S₀ n (m + 1) =
          some (s.appendBody
            (children.filterMap (assembleF p2c S₀ n))) := by
        rw [assembleF_canon W (m + 1) (by omega), hs, hgc]
        rfl
      have hstate : ∀ j, (if j = m + 1
          then some (s.appendBody
            (children.filterMap (assembleF p2c S₀ n)))
          else if ∃ c ∈ children, c ∈ pfChain pf j then none
          else S j) = stateAt p2c pf n S₀ (m + 1) j := by
        intro j
        by_cases hjm : j = m + 1
        · subst hjm
          simp only [stateAt]
          have hc2 : 1 ≤ m + 1 ∧ m + 1 < n ∧ rootAnc pf (m + 1) ≤ m + 1 :=
            ⟨by omega, by omega, hraEq.le⟩
          rw [if_pos trivial, if_pos hc2, if_pos hz, hasm]
        · rw [if_neg hjm]
          by_cases hex : ∃ c ∈ children, c ∈ pfChain pf j
          · rw [if_pos hex]
            obtain ⟨hj1, hrj⟩ := hsub j hex
            have hpjz : ¬(pf j = 0) := by
              intro hpj
              have hx := rootAnc_self_of_pf_zero pf W.pf_desc W.pf_zero j
                hj1 hpj
              omega
            have hjn : j < n := by
              by_contra hjn
              exact hpjz (W.pf_out j (by omega))
            simp only [stateAt]
            rw [if_pos ⟨hj1, hjn, by omega⟩, if_neg hpjz]
          · rw [if_neg hex, hS j]
            refine stateAt_stable W m j (fun h1 h2 heq => ?_)
            have hmem := (rootAnc_mem pf W.pf_desc W.pf_zero j h1).1
            rw [heq] at hmem
            obtain ⟨d, hd1, hd2, hd3, hd4⟩ := subtree_step W (m + 1) j
              (by omega) (by omega) hmem (fun hEq => hjm hEq.symm)
            refine hex ⟨d, ?_, hd4⟩
            have hx := (W.children_mem (m + 1) d).mpr ⟨hd2, hd3, hd1⟩
            rw [hgc] at hx
            exact hx
      refine ⟨fun j => if j = m + 1
          then some (s.appendBody
            (children.filterMap (assembleF p2c S₀ n)))
          else if ∃ c ∈ children, c ∈ pfChain pf j then none
          else S j, fun j => hstate j, fun rest => ?_⟩
      simp only [finishLoop]
      rw [if_neg (by simp [hcond])]
      have happly : applyChildrenF p2c (n * n + n) S (m + 1) =
          some (fun j => if j = m + 1
            then some (s.appendBody
              (children.filterMap (assembleF p2c S₀ n)))
            else if ∃ c ∈ children, c ∈ pfChain pf j then none
            else S j) := by
        simp only [applyChildrenF, hgc]
        exact hspec
      rw [happly]

/-- The whole compaction loop carries the invariant across any index
segment. -/
theorem finishLoop_inv {p2c : List (Nat × List Nat)} {pf : Nat → Nat}
    {n : Nat} {S₀ : Nat → Option Stmt} (W : TreeWF p2c pf n S₀) :
    ∀ (k m : Nat) (S : Nat → Option Stmt),
      (∀ j, S j = stateAt p2c pf n S₀ m j) → m + k + 1 ≤ n →
      ∃ S2, finishLoop p2c (n * n + n) (List.range' (m + 1) k) S = some S2 ∧
        ∀ j, S2 j = stateAt p2c pf n S₀ (m + k) j := by
  intro k
  induction k with
  | zero =>
    intro m S hS _
    exact ⟨S, rfl, fun j => hS j⟩
  | succ k ih =>
    intro m S hS hk
    obtain ⟨S₁, hS₁, hstep⟩ := finish_step W m (by omega) S hS
    obtain ⟨S2, hloop, hS2⟩ := ih (m + 1) S₁ hS₁ (by omega)
    refine ⟨S2, ?_, fun j => by
      rw [hS2 j, show m + 1 + k = m + (k + 1) from by omega]⟩
    have hrange : List.range' (m + 1) (k + 1) =
        (m + 1) :: List.range' (m + 2) k := rfl
    rw [hrange, hstep (List.range' (m + 2) k)]
    exact hloop

/-- `CssTree::finish` on any well-formed tree returns exactly the fully
assembled root children in index order. -/
theorem CssTree.finish_spec (t : CssTree) (pf : Nat → Nat)
    (W : TreeWF t.parentToChild pf t.stmts.length (slotFun t.stmts)) :
    t.finish = some
      (List.filterMap
        (assembleF t.parentToChild (slotFun t.stmts) t.stmts.length)
        ((List.range' 1 (t.stmts.length - 1)).filter
          fun c => pf c == 0)) := by
  obtain ⟨S2, hloop, hS2⟩ := finishLoop_inv W (t.stmts.length - 2) 0
    (slotFun t.stmts) (fun j => (stateAt_zero W j).symm)
    (by have := W.n_pos; omega)
  have hloop2 : finishLoop t.parentToChild
      (t.stmts.length * t.stmts.length + t.stmts.length)
      (List.range' 1 (t.stmts.length - 2)) (slotFun t.stmts) =
        some S2 := hloop
  simp only [CssTree.finish]
  rw [hloop2]
  refine congrArg some ?_
  have hfin : ∀ j, S2 j =
      stateAt t.parentToChild pf t.stmts.length (slotFun t.stmts)
        (t.stmts.length - 2) j := by
    intro j
    rw [hS2 j,
      show 0 + (t.stmts.length - 2) = t.stmts.length - 2 from by omega]
  obtain ⟨m, hm⟩ : ∃ m, t.stmts.length = m + 1 :=
    ⟨t.stmts.length - 1, by have := W.n_pos; omega⟩
  have hrange : List.range t.stmts.length =
      0 :: List.range' 1 (t.stmts.length - 1) := by
    rw [hm, List.range_eq_range']
    rfl
  rw [hrange, List.filterMap_cons]
  have hS20 : S2 0 = none := by
    rw [hfin 0]
    simp only [stateAt]
    rw [if_neg (by intro h; omega)]
    exact W.root_none
  rw [hS20]
  apply listFilterMapSplit
  intro j hj
  rw [List.mem_range'_1] at hj
  have hj1 : 1 ≤ j := hj.1
  have hjn : j < t.stmts.length := by omega
  rw [hfin j]
  by_cases hz : pf j = 0
  · have hra : rootAnc pf j = j :=
      rootAnc_self_of_pf_zero pf W.pf_desc W.pf_zero j hj1 hz
    have hbeq : (pf j == 0) = true := by simp [hz]
    rw [hbeq]
    simp only [if_true]
    by_cases hlast : j ≤ t.stmts.length - 2
    · simp only [stateAt]
      rw [if_pos ⟨hj1, hjn, by omega⟩, if_pos hz]
    · have hjl : t.stmts.length - 1 ≤ j := by omega
      have hgc := assocGet_high_none W j hjl
      simp only [stateAt]
      rw [if_neg (by intro ⟨a1, a2, a3⟩; omega),
        assembleF_childless W j hj1 hgc]
  · have hra : rootAnc pf j ≤ t.stmts.length - 2 := by
      have h1 := rootAnc_le_pf pf W.pf_desc W.pf_zero j hj1 hz
      have h2 := W.pf_desc j hj1
      omega
    have hbeq : (pf j == 0) = false := by simp [hz]
    rw [hbeq, if_neg (by simp)]
    simp only [stateAt]
    rw [if_pos ⟨hj1, hjn, hra⟩, if_neg hz]

/-- Lookup after `assocPush`: the pushed key gains the child at the end
of its (possibly fresh) list, everything else is unchanged. -/
theorem assocGet_assocPush (l : List (Nat × List Nat)) (key c q : Nat) :
    assocGet (assocPush l key c) q =
      if q = key then some ((assocGet l key).getD [] ++ [c])
      else assocGet l q := by
  induction l with
  | nil =>
    by_cases h : q = key
    · subst h
      simp [assocPush, assocGet]
    · have h2 : ¬(key = q) := fun hh => h hh.symm
      simp [assocPush, assocGet, h, h2]
  | cons e rest ih =>
    obtain ⟨k, cs⟩ := e
    by_cases hk : k = key
    · subst hk
      by_cases hq : q = k
      · subst hq
        simp [assocPush, assocGet]
      · have hq2 : ¬(k = q) := fun hh => hq hh.symm
        simp [assocPush, assocGet, hq, hq2]
    · by_cases hq : k = q
      · subst hq
        simp [assocPush, assocGet, hk]
      · simp [assocPush, assocGet, hk, hq, ih]

/-- `add_stmt` in closed form (the parent option collapsed through
`opParent`). -/
theorem addStmt_eq (t : CssTree) (s : Stmt) (p : Option Nat) :
    (t.addStmt s p).1 =
      ⟨t.stmts ++ [some s],
        assocPush t.parentToChild (p.getD 0) t.stmts.length,
        t.childToParent ++ [(t.stmts.length, p.getD 0)]⟩ := by
  cases p <;> rfl

theorem pfOps_append (ops : List (Stmt × Option Nat))
    (op : Stmt × Option Nat) (c : Nat) (hc : c ≤ ops.length) :
    pfOps (ops ++ [op]) c = pfOps ops c := by
  by_cases h0 : c = 0
  · simp [pfOps, h0]
  · rw [pfOps, pfOps, if_neg h0, if_neg h0,
      List.getElem?_append_left (by omega)]

theorem pfOps_last (ops : List (Stmt × Option Nat))
    (op : Stmt × Option Nat) :
    pfOps (ops ++ [op]) (ops.length + 1) = opParent op := by
  rw [pfOps, if_neg (by omega)]
  simp

/-- What a build trace produces: the slot vector is the trace's
statements shifted one past the root slot, and the child map holds
exactly the `pfOps` fibers in index order. -/
theorem build_char (ops : List (Stmt × Option Nat)) :
    (CssTree.build ops).stmts =
        none :: ops.map (fun op => some op.1) ∧
      ∀ q, assocGet (CssTree.build ops).parentToChild q =
        (if ((List.range' 1 ops.length).filter
              fun c => pfOps ops c == q).isEmpty
          then none
          else some ((List.range' 1 ops.length).filter
            fun c => pfOps ops c == q)) := by
  induction ops using List.reverseRecOn with
  | nil => exact ⟨rfl, fun q => rfl⟩
  | append_singleton l a ih =>
    have hfold : CssTree.build (l ++ [a]) =
        ((CssTree.build l).addStmt a.1 a.2).1 := by
      rw [CssTree.build, List.foldl_append]
      rfl
    have hlen : (CssTree.build l).stmts.length = l.length + 1 := by
      rw [ih.1]
      simp
    constructor
    · rw [hfold, addStmt_eq]
      show (CssTree.build l).stmts ++ [some a.1] = _
      rw [ih.1]
      simp
    · intro q
      rw [hfold, addStmt_eq]
      show assocGet (assocPush (CssTree.build l).parentToChild
        (opParent a) (CssTree.build l).stmts.length) q = _
      rw [assocGet_assocPush, hlen]
      have hfib : (List.range' 1 (l ++ [a]).length).filter
            (fun c => pfOps (l ++ [a]) c == q) =
          ((List.range' 1 l.length).filter fun c => pfOps l c == q) ++
            (if opParent a == q then [l.length + 1] else []) := by
        rw [List.length_append, List.length_cons, List.length_nil,
          List.range'_concat, List.filter_append]
        congr 1
        · apply List.filter_congr
          intro c hc
          rw [List.mem_range'_1] at hc
          rw [pfOps_append l a c (by omega)]
        · rw [show (1 + 1 * l.length : Nat) = l.length + 1 from by omega]
          simp only [List.filter_cons, List.filter_nil]
          rw [pfOps_last]
      by_cases hq : q = opParent a
      · subst hq
        rw [if_pos rfl]
        have hgd : (assocGet (CssTree.build l).parentToChild
            (opParent a)).getD [] =
            (List.range' 1 l.length).filter
              fun c => pfOps l c == opParent a := by
          rw [ih.2 (opParent a)]
          by_cases he : ((List.range' 1 l.length).filter
              fun c => pfOps l c == opParent a).isEmpty
          · rw [if_pos he]
            rw [List.isEmpty_iff] at he
            rw [he]
            rfl
          · rw [if_neg he]
            rfl
        rw [hgd]
        have hfib2 : (List.range' 1 (l ++ [a]).length).filter
            (fun c => pfOps (l ++ [a]) c == opParent a) =
            ((List.range' 1 l.length).filter
              fun c => pfOps l c == opParent a) ++ [l.length + 1] := by
          rw [hfib]
          simp
        rw [hfib2]
        rw [if_neg (by
          intro hemp
          rw [List.isEmpty_iff] at hemp
          have hne := List.append_ne_nil_of_right_ne_nil
            ((List.range' 1 l.length).filter
              fun c => pfOps l c == opParent a)
            (show ([l.length + 1] : List Nat) ≠ [] from by simp)
          exact hne hemp)]
      · rw [if_neg hq]
        have hfib2 : (List.range' 1 (l ++ [a]).length).filter
            (fun c => pfOps (l ++ [a]) c == q) =
            (List.range' 1 l.length).filter fun c => pfOps l c == q := by
          rw [hfib, if_neg (by simp [Ne.symm hq]), List.append_nil]
        rw [hfib2, ih.2 q]

/-- Slot lookup on a built tree. -/
theorem build_slot (ops : List (Stmt × Option Nat)) (k : Nat)
    (op : Stmt × Option Nat) (hop : ops[k]? = some op) :
    slotFun (CssTree.build ops).stmts (k + 1) = some op.1 := by
  show (CssTree.build ops).stmts.getD (k + 1) none = some op.1
  rw [(build_char ops).1, List.getD_cons_succ, List.getD_eq_getElem?_getD,
    List.getElem?_map, hop]
  rfl

/-- A valid build trace yields a well-formed tree whose parent function
is the one the trace induces. -/
theorem validOps_TreeWF (ops : List (Stmt × Option Nat))
    (hv : validOps ops = true) :
    TreeWF (CssTree.build ops).parentToChild (pfOps ops)
      (CssTree.build ops).stmts.length
      (slotFun (CssTree.build ops).stmts) := by
  have hlen : (CssTree.build ops).stmts.length = ops.length + 1 := by
    rw [(build_char ops).1]
    simp
  have hvk : ∀ k op, ops[k]? = some op →
      opParent op ≤ k ∧ (opParent op = 0 ∨
        (match ops[opParent op - 1]? with
          | some parentOp => parentOp.1.isNestable
          | none => false) = true) := by
    intro k op hk
    have hklen : k < ops.length := by
      by_contra h
      rw [List.getElem?_eq_none (by omega)] at hk
      simp at hk
    have hall := (List.all_eq_true.mp hv) k
      (by rw [List.mem_range]; exact hklen)
    rw [hk] at hall
    have hall2 : (decide (opParent op ≤ k) &&
        (opParent op == 0 ||
          match ops[opParent op - 1]? with
          | some parentOp => parentOp.1.isNestable
          | none => false)) = true := hall
    rw [Bool.and_eq_true, Bool.or_eq_true] at hall2
    refine ⟨by have := hall2.1; simpa using this, ?_⟩
    rcases hall2.2 with h | h
    · exact Or.inl (by simpa using h)
    · exact Or.inr h
  refine ⟨?_, ?_, ?_, ?_, ?_, ?_, ?_, ?_, ?_⟩
  · rw [hlen]
    omega
  · intro c hc
    cases hck : ops[c - 1]? with
    | none =>
      rw [pfOps, if_neg (by omega), hck]
      show 0 < c
      omega
    | some op =>
      rw [pfOps, if_neg (by omega), hck]
      show opParent op < c
      have h1 := (hvk (c - 1) op hck).1
      omega
  · rfl
  · intro c hc
    rw [hlen] at hc
    rw [pfOps, if_neg (by omega),
      List.getElem?_eq_none (show ops.length ≤ c - 1 from by omega)]
  · intro q
    have h2 := (build_char ops).2 q
    show assocGet (CssTree.build ops).parentToChild q =
      (if ((List.range' 1 ((CssTree.build ops).stmts.length - 1)).filter
          fun c => pfOps ops c == q).isEmpty
        then none
        else some
          ((List.range' 1 ((CssTree.build ops).stmts.length - 1)).filter
            fun c => pfOps ops c == q))
    rw [show (CssTree.build ops).stmts.length - 1 = ops.length from
      by omega]
    exact h2
  · intro i h1 h2
    rw [hlen] at h2
    obtain ⟨k, rfl⟩ : ∃ k, i = k + 1 := ⟨i - 1, by omega⟩
    obtain ⟨op, hop⟩ : ∃ op, ops[k]? = some op := by
      have hk : k < ops.length := by omega
      exact ⟨ops[k], List.getElem?_eq_getElem hk⟩
    rw [build_slot ops k op hop]
    rfl
  · show (CssTree.build ops).stmts.getD 0 none = none
    rw [(build_char ops).1]
    rfl
  · intro i hi
    show (CssTree.build ops).stmts.getD i none = none
    exact List.getD_eq_default _ _ hi
  · intro q cs hq1 hq
    have h2 := (build_char ops).2 q
    rw [hq] at h2
    by_cases he : ((List.range' 1 ops.length).filter
        fun c => pfOps ops c == q).isEmpty
    · rw [if_pos he] at h2
      simp at h2
    · rw [if_neg he] at h2
      obtain ⟨c, hc⟩ := List.exists_mem_of_ne_nil
        ((List.range' 1 ops.length).filter fun c => pfOps ops c == q)
        (fun hnil => he (by rw [hnil]; rfl))
      have hcf := List.mem_filter.mp hc
      have hcr := List.mem_range'_1.mp hcf.1
      have hcq : pfOps ops c = q := by simpa using hcf.2
      obtain ⟨op, hop⟩ : ∃ op, ops[c - 1]? = some op := by
        have hk : c - 1 < ops.length := by omega
        exact ⟨ops[c - 1], List.getElem?_eq_getElem hk⟩
      have hpq : opParent op = q := by
        rw [pfOps, if_neg (by omega), hop] at hcq
        exact hcq
      obtain ⟨_, hrest⟩ := hvk (c - 1) op hop
      rcases hrest with h | h
      · omega
      · rw [hpq] at h
        cases hpo : ops[q - 1]? with
        | none =>
          rw [hpo] at h
          simp at h
        | some parentOp =>
          rw [hpo] at h
          refine ⟨parentOp.1, ?_, h⟩
          rw [show q = q - 1 + 1 from by omega]
          exact build_slot ops (q - 1) parentOp hpo

/-- Claim C7: on a CSS output tree built without at-root or merge-through
detours (every node added under its real, nestable parent, which is what
`validOps` states), `finish` returns exactly the root-level statements in
index (= insertion) order, with each nested node assembled into its
parent's body in insertion order — compaction adds nothing and reorders
nothing. -/
theorem C7_css_tree_finish (ops : List (Stmt × Option Nat))
    (hv : validOps ops = true) :
    (CssTree.build ops).finish = some
      (List.filterMap
        (assembleF (CssTree.build ops).parentToChild
          (slotFun (CssTree.build ops).stmts) (ops.length + 1))
        ((List.range' 1 ops.length).filter fun c => pfOps ops c == 0)) := by
  have W := validOps_TreeWF ops hv
  have hlen : (CssTree.build ops).stmts.length = ops.length + 1 := by
    rw [(build_char ops).1]
    simp
  rw [CssTree.finish_spec (CssTree.build ops) (pfOps ops) W, hlen,
    show ops.length + 1 - 1 = ops.length from by omega]

/-- A four-operation build trace: two root rule sets, each with one
nested style declaration. -/
def demoOps : List (Stmt × Option Nat) :=
  [(Stmt.ruleSet "a" [], none),
   (Stmt.style "color" "red", some 1),
   (Stmt.ruleSet "b" [], none),
   (Stmt.style "width" "1px", some 3)]

/-- Closed-form instance of `C7_css_tree_finish` on `demoOps`: the two
rule sets come back at the root in insertion order, each with its nested
style appended to its body. -/
theorem C7_css_tree_finish_witness :
    validOps demoOps = true ∧
      (CssTree.build demoOps).finish = some
        [Stmt.ruleSet "a" [Stmt.style "color" "red"],
         Stmt.ruleSet "b" [Stmt.style "width" "1px"]] :=
  ⟨rfl, (C7_css_tree_finish demoOps rfl).trans rfl⟩
